import Mathlib

/-!
Shallow embedding of `src/backup.py`, a one-way directory mirroring tool.

The filesystem is modelled as a tree of named entries.  A relative path is a
`List String` (the empty list denotes the root itself).  Source and destination
roots are held as two separate trees — mirroring the program, which only ever
passes source-rooted paths to reads and destination-rooted paths to writes.

An MD5 digest is modelled as the byte content itself: the spec treats digest
equality as content equality (collisions are ignored at
cryptographic-confidence level), so an injective fingerprint is faithful.

Python exceptions are modelled with an explicit error value: operations that
can raise return `Except Err _`, and the pass driver threads the
filesystem state so that mutations made before an uncaught exception persist,
exactly as on a real filesystem.
-/

set_option maxRecDepth 4000

namespace Backup

/-- Reasons a modelled filesystem call can raise (`PermissionError`,
`IsADirectoryError`, `NotADirectoryError`, `FileNotFoundError`). -/
inductive Err where
  | permissionDenied
  | isADir
  | notADir
  | fileNotFound
deriving DecidableEq, Repr

/-- A filesystem node: a regular file (with byte content and a flag saying
whether opening it for reading succeeds) or a directory with a list of named
children, kept in the deterministic order in which `os.scandir` reports them. -/
inductive Node where
  | file (content : List Nat) (readable : Bool)
  | dir (children : List (String × Node))
deriving Repr

abbrev Entries := List (String × Node)

/-- A root that may not exist on disk (`none`: nothing at that path). -/
abbrev Fs := Option Node

/-- MD5 digest, modelled injectively by the content itself. -/
abbrev Md5 := List Nat

/-- First child with the given name, if any (filesystem name resolution). -/
def lookupChild : Entries → String → Option Node
  | [], _ => none
  | (k, v) :: rest, n => if k = n then some v else lookupChild rest n

/-- Replace the first child with the given name, or append a new one. -/
def setChild : Entries → String → Node → Entries
  | [], k, v => [(k, v)]
  | (k', v') :: rest, k, v =>
    if k' = k then (k, v) :: rest else (k', v') :: setChild rest k v

/-- Drop the first child with the given name. -/
def removeChild : Entries → String → Entries
  | [], _ => []
  | (k, v) :: rest, n => if k = n then rest else (k, v) :: removeChild rest n

/-- Resolve a relative path against a root. -/
def olookup : Fs → List String → Fs
  | t, [] => t
  | some (.dir cs), k :: ks => olookup (lookupChild cs k) ks
  | _, _ :: _ => none

/-- `os.path.exists(os.path.join(root, p))`: true for files and directories. -/
def pexists (t : Fs) (p : List String) : Bool := (olookup t p).isSome

/-- `os.path.exists(os.path.join(dest, rel))` where `rel` comes from
`os.path.relpath`: the root yields `rel = "."`, so the joined path ends in
`/.` and exists only when the root is a directory.  Deeper paths join
normally. -/
def destDirExists (t : Fs) : List String → Bool
  | [] => match t with
    | some (.dir _) => true
    | _ => false
  | k :: ks => pexists t (k :: ks)

/-- The chain of fresh directories `os.makedirs` builds below a missing
point. -/
def freshDirs : List String → Node
  | [] => .dir []
  | k :: ks => .dir [(k, freshDirs ks)]

/-- `os.makedirs(os.path.join(root, p))`, creating intermediate directories;
raises when a path component (or the target itself) is a non-directory. -/
def mkdirsAux : Fs → List String → Except Err Node
  | none, p => .ok (freshDirs p)
  | some (.file _ _), _ => .error .notADir
  | some (.dir cs), [] => .ok (.dir cs)
  | some (.dir cs), k :: ks =>
    match mkdirsAux (lookupChild cs k) ks with
    | .ok c => .ok (.dir (setChild cs k c))
    | .error e => .error e

def mkdirs (t : Fs) (p : List String) : Except Err Fs :=
  match mkdirsAux t p with
  | .ok n => .ok (some n)
  | .error e => .error e

/-- Writing a file's bytes at a destination path (the write half of
`shutil.copy2`): the parent chain must be directories, and an existing
directory at the target makes the write raise. -/
def writeAt : Fs → List String → List Nat → Except Err Fs
  | some (.dir cs), [k], c =>
    match lookupChild cs k with
    | none => .ok (some (.dir (cs ++ [(k, .file c true)])))
    | some (.file _ _) => .ok (some (.dir (setChild cs k (.file c true))))
    | some (.dir _) => .error .isADir
  | some (.dir cs), k :: k2 :: ks, c =>
    match lookupChild cs k with
    | some child =>
      match writeAt (some child) (k2 :: ks) c with
      | .ok (some child') => .ok (some (.dir (setChild cs k child')))
      | .ok none => .error .fileNotFound
      | .error e => .error e
    | none => .error .fileNotFound
  | some (.file _ _), _ :: _, _ => .error .notADir
  | none, _, _ => .error .fileNotFound
  | some _, [], _ => .error .isADir

/-- Dropping the entry at a path: models both `os.remove` (file) and
`shutil.rmtree` (directory with its whole subtree) — in the tree both just
drop the named child.  The `sync` prune loop only ever calls this on entries
it obtained from the walk, so a missing target (impossible on a filesystem
with unique names) leaves the tree unchanged. -/
def removeAt : Fs → List String → Fs
  | t, [] => t
  | some (.dir cs), [k] => some (.dir (removeChild cs k))
  | some (.dir cs), k :: k2 :: ks =>
    match lookupChild cs k with
    | some child =>
      match removeAt (some child) (k2 :: ks) with
      | some child' => some (.dir (setChild cs k child'))
      | none => some (.dir cs)
    | none => some (.dir cs)
  | t, _ :: _ => t

/-- `calc_md5` (backup.py lines 8-19), applied to the node the path resolves
to.  `open` on a missing path raises `FileNotFoundError`, which is the only
exception `calc_md5` catches (returning `None`); an unreadable file raises
`PermissionError` and a directory raises `IsADirectoryError`, both of which
escape. -/
def calc_md5 : Fs → Except Err (Option Md5)
  | none => .ok none
  | some (.file c true) => .ok (some c)
  | some (.file _ false) => .error .permissionDenied
  | some (.dir _) => .error .isADir

/-- `shutil.copy2(source_file, dest_file)`: reads the source file (raising if
it is missing, unreadable, or a directory) and writes its bytes at the
destination path. -/
def copy2 (src : Fs) (sp : List String) (dst : Fs) (dp : List String) :
    Except Err Fs :=
  match olookup src sp with
  | some (.file c true) => writeAt dst dp c
  | some (.file _ false) => .error .permissionDenied
  | some (.dir _) => .error .isADir
  | none => .error .fileNotFound

/-- Names of directory children, in scandir order (the `dirs` of an `os.walk`
triple). -/
def dirNames : Entries → List String
  | [] => []
  | (k, .dir _) :: rest => k :: dirNames rest
  | (_, .file _ _) :: rest => dirNames rest

/-- Names of file children, in scandir order (the `files` of an `os.walk`
triple). -/
def fileNames : Entries → List String
  | [] => []
  | (k, .file _ _) :: rest => k :: fileNames rest
  | (_, .dir _) :: rest => fileNames rest

/-- One `os.walk` yield: (relative path of the directory, dirs, files). -/
abbrev Triple := List String × List String × List String

mutual
/-- `os.walk(root)` top-down: yield a directory's triple, then recurse into
its subdirectories in order.  A file root yields nothing (`os.walk` swallows
the scandir error). -/
def walkPre : Node → List String → List Triple
  | .file _ _, _ => []
  | .dir cs, p => (p, dirNames cs, fileNames cs) :: walkPreChildren cs p

def walkPreChildren : Entries → List String → List Triple
  | [], _ => []
  | (k, .dir cs) :: rest, p =>
    walkPre (.dir cs) (p ++ [k]) ++ walkPreChildren rest p
  | (_, .file _ _) :: rest, p => walkPreChildren rest p
end

mutual
/-- `os.walk(root, topdown=False)`: recurse into subdirectories first, then
yield the directory's own triple. -/
def walkBottom : Node → List String → List Triple
  | .file _ _, _ => []
  | .dir cs, p => walkBottomChildren cs p ++ [(p, dirNames cs, fileNames cs)]

def walkBottomChildren : Entries → List String → List Triple
  | [], _ => []
  | (k, .dir cs) :: rest, p =>
    walkBottom (.dir cs) (p ++ [k]) ++ walkBottomChildren rest p
  | (_, .file _ _) :: rest, p => walkBottomChildren rest p
end

/-- `os.walk` on a root path that is missing or not a directory yields no
triples. -/
def oWalkPre : Fs → List Triple
  | none => []
  | some n => walkPre n []

def oWalkBottom : Fs → List Triple
  | none => []
  | some n => walkBottom n []

/-- One log line of `sync`: the five messages it emits, each carrying the
relative path of the affected entry.  (`sync` itself never logs an error
line; the only error logging is `main`'s pass-level catch.) -/
inductive Event where
  | createdDir (p : List String)
  | copiedNewFile (p : List String)
  | updatedFile (p : List String)
  | deletedFile (p : List String)
  | deletedDir (p : List String)
deriving DecidableEq, Repr

/-- The state a pass threads: the source tree (never written), the
destination tree, and the log lines emitted so far. -/
structure PassState where
  src : Fs
  dst : Fs
  events : List Event
deriving Repr

/-- Phase 1, per-triple step 1 (backup.py lines 40-46): ensure the
destination directory for the walked source directory exists, creating it
with `os.makedirs` otherwise. -/
def ensureRoot (s : PassState) (p : List String) : PassState × Option Err :=
  if destDirExists s.dst p then (s, none)
  else
    match mkdirs s.dst p with
    | .ok d' => (⟨s.src, d', s.events ++ [.createdDir p]⟩, none)
    | .error e => (s, some e)

/-- Phase 1, per-subdirectory body (backup.py lines 48-53). -/
def step1dir (s : PassState) (q : List String) : PassState × Option Err :=
  if pexists s.dst q then (s, none)
  else
    match mkdirs s.dst q with
    | .ok d' => (⟨s.src, d', s.events ++ [.createdDir q]⟩, none)
    | .error e => (s, some e)

def step1dirs : PassState → List String → List String → PassState × Option Err
  | s, _, [] => (s, none)
  | s, p, d :: ds =>
    match step1dir s (p ++ [d]) with
    | (s', none) => step1dirs s' p ds
    | (s', some e) => (s', some e)

/-- Phase 1, per-file body (backup.py lines 56-73): fingerprint source and
destination, and copy with `shutil.copy2` when the fingerprints differ
(logging `Copied new file` when the destination had none, `Updated file`
otherwise). -/
def step1file (s : PassState) (p : List String) (f : String) :
    PassState × Option Err :=
  match calc_md5 (olookup s.src (p ++ [f])) with
  | .error e => (s, some e)
  | .ok source_md5 =>
    match
      (if pexists s.dst (p ++ [f]) then calc_md5 (olookup s.dst (p ++ [f]))
       else .ok none) with
    | .error e => (s, some e)
    | .ok dest_md5 =>
      if source_md5 ≠ dest_md5 then
        match copy2 s.src (p ++ [f]) s.dst (p ++ [f]) with
        | .ok d' =>
          (⟨s.src, d',
            s.events ++
              [if dest_md5 = none then .copiedNewFile (p ++ [f])
               else .updatedFile (p ++ [f])]⟩, none)
        | .error e => (s, some e)
      else (s, none)

def step1files : PassState → List String → List String → PassState × Option Err
  | s, _, [] => (s, none)
  | s, p, f :: fs =>
    match step1file s p f with
    | (s', none) => step1files s' p fs
    | (s', some e) => (s', some e)

/-- Phase 1 body for one `os.walk(source)` triple. -/
def step1 (s : PassState) (t : Triple) : PassState × Option Err :=
  match ensureRoot s t.1 with
  | (s1, some e) => (s1, some e)
  | (s1, none) =>
    match step1dirs s1 t.1 t.2.1 with
    | (s2, some e) => (s2, some e)
    | (s2, none) => step1files s2 t.1 t.2.2

/-- Phase 1 (backup.py lines 38-73): fold the per-triple body over the
source walk; an uncaught exception stops the pass, keeping the mutations
made so far. -/
def runPhase1 : PassState → List Triple → PassState × Option Err
  | s, [] => (s, none)
  | s, t :: ts =>
    match step1 s t with
    | (s', none) => runPhase1 s' ts
    | (s', some e) => (s', some e)

/-- Phase 2, per-file body (backup.py lines 82-87): delete a destination
file whose path does not exist under source. -/
def step2file (s : PassState) (q : List String) : PassState :=
  if pexists s.src q then s
  else ⟨s.src, removeAt s.dst q, s.events ++ [.deletedFile q]⟩

def step2files : PassState → List String → List String → PassState
  | s, _, [] => s
  | s, p, f :: fs => step2files (step2file s (p ++ [f])) p fs

/-- Phase 2, per-directory body (backup.py lines 90-95): `shutil.rmtree` a
destination directory whose path does not exist under source. -/
def step2dir (s : PassState) (q : List String) : PassState :=
  if pexists s.src q then s
  else ⟨s.src, removeAt s.dst q, s.events ++ [.deletedDir q]⟩

def step2dirs : PassState → List String → List String → PassState
  | s, _, [] => s
  | s, p, d :: ds => step2dirs (step2dir s (p ++ [d])) p ds

/-- Phase 2 body for one `os.walk(dest, topdown=False)` triple: files first,
then directories. -/
def step2 (s : PassState) (t : Triple) : PassState :=
  step2dirs (step2files s t.1 t.2.2) t.1 t.2.1

def runPhase2 : PassState → List Triple → PassState
  | s, [] => s
  | s, t :: ts => runPhase2 (step2 s t) ts

/-- `sync(source, dest, logfile)` (backup.py lines 35-95).  Phase 2's
bottom-up walk is taken over the tree as phase 1 left it: the lazy
`os.walk(dest, topdown=False)` generator scans every directory before its
triple is processed, and the prune loop only mutates parts of the tree whose
triples have already been yielded, so the traversal equals a walk of the
phase-1 snapshot.  The returned error, if any, is the exception that escaped
`sync` (caught by `main`'s pass-level handler). -/
def sync (src dst : Fs) : PassState × Option Err :=
  match runPhase1 ⟨src, dst, []⟩ (oWalkPre src) with
  | (s1, some e) => (s1, some e)
  | (s1, none) => (runPhase2 s1 (oWalkBottom s1.dst), none)

/-- One log line as seen by `main`'s loop body. -/
inductive LogLine where
  | event (e : Event)
  | errorLine (e : Err)
  | completed
deriving DecidableEq, Repr

/-- One iteration of `main`'s loop (backup.py lines 120-126): run `sync`,
log `Error: ...` if it raised, then log `Synchronization completed` and
continue — the process never treats a failed pass as fatal. -/
def mainPass (src dst : Fs) : Fs × List LogLine :=
  match sync src dst with
  | (s, some e) => (s.dst, s.events.map .event ++ [.errorLine e, .completed])
  | (s, none) => (s.dst, s.events.map .event ++ [.completed])

/-- Well-formedness of a real directory tree: sibling names are unique. -/
inductive NWf : Node → Prop
  | file {c b} : NWf (.file c b)
  | dir {cs : Entries} : (cs.map Prod.fst).Nodup → (∀ e ∈ cs, NWf e.2) →
      NWf (.dir cs)

def OWf : Fs → Prop
  | none => True
  | some n => NWf n

/-- `p` is an initial segment of `q` (the entry at `p` is the entry at `q`
or an ancestor of it). -/
def Starts (p q : List String) : Prop := ∃ r, p ++ r = q

/-! ### Path and child-list basics -/

@[simp] theorem olookup_nil (t : Fs) : olookup t [] = t := by
  match t with
  | none => rfl
  | some (.file c b) => rfl
  | some (.dir cs) => rfl

@[simp] theorem olookup_none (p : List String) : olookup none p = none := by
  cases p <;> rfl

@[simp] theorem olookup_file (c : List Nat) (b : Bool) (k : String)
    (ks : List String) : olookup (some (.file c b)) (k :: ks) = none := rfl

@[simp] theorem olookup_dir_cons (cs : Entries) (k : String) (ks : List String) :
    olookup (some (.dir cs)) (k :: ks) = olookup (lookupChild cs k) ks := rfl

theorem olookup_append (t : Fs) (p q : List String) :
    olookup t (p ++ q) = olookup (olookup t p) q := by
  induction p generalizing t with
  | nil => simp
  | cons k ks ih =>
    match t with
    | none => simp
    | some (.file c b) => simp
    | some (.dir cs) => simp [ih]

theorem olookup_single (t : Fs) (x : String) (v : Node) :
    olookup t [x] = some v ↔
      ∃ cs, t = some (.dir cs) ∧ lookupChild cs x = some v := by
  match t with
  | none => simp
  | some (.file c b) => simp
  | some (.dir cs) => simp [olookup_nil]

/-- A present path's parent resolves to a directory containing it. -/
theorem olookup_parent {t : Fs} {q : List String} {x : String} {v : Node}
    (h : olookup t (q ++ [x]) = some v) :
    ∃ cs, olookup t q = some (.dir cs) ∧ lookupChild cs x = some v := by
  rw [olookup_append] at h
  exact (olookup_single _ _ _).1 h

theorem isSome_of_starts {t : Fs} {p q : List String}
    (hpq : Starts p q) (h : (olookup t q).isSome) : (olookup t p).isSome := by
  obtain ⟨r, rfl⟩ := hpq
  rw [olookup_append] at h
  cases hv : olookup t p with
  | none => rw [hv] at h; simp at h
  | some v => simp

theorem lookupChild_mem {cs : Entries} {k : String} {v : Node}
    (h : lookupChild cs k = some v) : (k, v) ∈ cs := by
  induction cs with
  | nil => simp [lookupChild] at h
  | cons e rest ih =>
    obtain ⟨k', v'⟩ := e
    by_cases hk : k' = k
    · subst hk
      simp [lookupChild] at h
      simp [h]
    · simp [lookupChild, hk] at h
      exact List.mem_cons_of_mem _ (ih h)

@[simp] theorem lookupChild_setChild_self (cs : Entries) (k : String) (v : Node) :
    lookupChild (setChild cs k v) k = some v := by
  induction cs with
  | nil => simp [setChild, lookupChild]
  | cons e rest ih =>
    obtain ⟨k', v'⟩ := e
    by_cases hk : k' = k
    · simp [setChild, hk, lookupChild]
    · simp [setChild, hk, lookupChild, ih]

theorem lookupChild_setChild_ne (cs : Entries) {k k' : String} (v : Node)
    (h : k' ≠ k) : lookupChild (setChild cs k v) k' = lookupChild cs k' := by
  induction cs with
  | nil => simp [setChild, lookupChild, Ne.symm h]
  | cons e rest ih =>
    obtain ⟨k'', v''⟩ := e
    by_cases hk : k'' = k
    · subst hk
      simp [setChild, lookupChild, Ne.symm h]
    · simp [setChild, hk, lookupChild, ih]

theorem lookupChild_removeChild_ne (cs : Entries) {k k' : String}
    (h : k' ≠ k) : lookupChild (removeChild cs k) k' = lookupChild cs k' := by
  induction cs with
  | nil => simp [removeChild, lookupChild]
  | cons e rest ih =>
    obtain ⟨k'', v''⟩ := e
    by_cases hk : k'' = k
    · subst hk
      simp [removeChild, lookupChild, Ne.symm h]
    · simp [removeChild, hk, lookupChild, ih]

theorem lookupChild_removeChild_self {cs : Entries} {k : String}
    (h : (cs.map Prod.fst).Nodup) : lookupChild (removeChild cs k) k = none := by
  induction cs with
  | nil => simp [removeChild, lookupChild]
  | cons e rest ih =>
    obtain ⟨k', v'⟩ := e
    simp only [List.map_cons, List.nodup_cons] at h
    by_cases hk : k' = k
    · subst hk
      have hrw : removeChild ((k', v') :: rest) k' = rest := by
        simp [removeChild]
      rw [hrw]
      cases hl : lookupChild rest k' with
      | none => rfl
      | some v =>
        exact absurd (List.mem_map_of_mem Prod.fst (lookupChild_mem hl)) h.1
    · simp [removeChild, hk, lookupChild, ih h.2]

theorem lookupChild_append_new (cs : Entries) (k k' : String) (v : Node) :
    lookupChild (cs ++ [(k, v)]) k' =
      (lookupChild cs k').orElse (fun _ => if k = k' then some v else none) := by
  induction cs with
  | nil => simp [lookupChild]
  | cons e rest ih =>
    obtain ⟨k'', v''⟩ := e
    by_cases hk : k'' = k'
    · simp [lookupChild, hk]
    · simp [lookupChild, hk, ih]

theorem mem_setChild {cs : Entries} {k : String} {v : Node} {e : String × Node}
    (h : e ∈ setChild cs k v) : e = (k, v) ∨ e ∈ cs := by
  induction cs with
  | nil => simp [setChild] at h; simp [h]
  | cons e' rest ih =>
    obtain ⟨k', v'⟩ := e'
    by_cases hk : k' = k
    · simp only [setChild, if_pos hk] at h
      rcases List.mem_cons.1 h with h | h
      · exact Or.inl h
      · exact Or.inr (List.mem_cons_of_mem _ h)
    · simp only [setChild, if_neg hk] at h
      rcases List.mem_cons.1 h with h | h
      · exact Or.inr (List.mem_cons.2 (Or.inl h))
      · rcases ih h with h | h
        · exact Or.inl h
        · exact Or.inr (List.mem_cons_of_mem _ h)

theorem keys_setChild_of_mem {cs : Entries} {k : String} (v : Node)
    (h : (lookupChild cs k).isSome) :
    (setChild cs k v).map Prod.fst = cs.map Prod.fst := by
  induction cs with
  | nil => simp [lookupChild] at h
  | cons e rest ih =>
    obtain ⟨k', v'⟩ := e
    by_cases hk : k' = k
    · simp [setChild, hk]
    · simp only [lookupChild, if_neg hk] at h
      simp [setChild, hk, ih h]

theorem not_mem_keys_of_lookupChild_none {cs : Entries} {k : String}
    (h : lookupChild cs k = none) : k ∉ cs.map Prod.fst := by
  induction cs with
  | nil => simp
  | cons e rest ih =>
    obtain ⟨k', v'⟩ := e
    by_cases hk : k' = k
    · simp [lookupChild, hk] at h
    · simp only [lookupChild, if_neg hk] at h
      simp only [List.map_cons, List.mem_cons]
      push_neg
      exact ⟨fun he => hk he.symm, ih h⟩

theorem keys_removeChild_sublist (cs : Entries) (k : String) :
    List.Sublist ((removeChild cs k).map Prod.fst) (cs.map Prod.fst) := by
  induction cs with
  | nil => simp [removeChild]
  | cons e rest ih =>
    obtain ⟨k', v'⟩ := e
    by_cases hk : k' = k
    · simp only [removeChild, if_pos hk, List.map_cons]
      exact List.Sublist.cons _ (List.Sublist.refl _)
    · simp only [removeChild, if_neg hk, List.map_cons]
      exact ih.cons₂ _

theorem mem_removeChild {cs : Entries} {k : String} {e : String × Node}
    (h : e ∈ removeChild cs k) : e ∈ cs := by
  induction cs with
  | nil => simp [removeChild] at h
  | cons e' rest ih =>
    obtain ⟨k', v'⟩ := e'
    by_cases hk : k' = k
    · simp only [removeChild, if_pos hk] at h
      exact List.mem_cons_of_mem _ h
    · simp only [removeChild, if_neg hk] at h
      rcases List.mem_cons.1 h with h | h
      · exact List.mem_cons.2 (Or.inl h)
      · exact List.mem_cons_of_mem _ (ih h)

/-! ### Well-formedness helpers -/

theorem NWf_child {cs : Entries} {k : String} {v : Node}
    (h : NWf (.dir cs)) (hl : lookupChild cs k = some v) : NWf v := by
  cases h with
  | dir hnd hall => exact hall _ (lookupChild_mem hl)

theorem OWf_lookupChild {cs : Entries} (h : NWf (.dir cs)) (k : String) :
    OWf (lookupChild cs k) := by
  cases hl : lookupChild cs k with
  | none => trivial
  | some v => exact NWf_child h hl

theorem NWf_setChild {cs : Entries} {k : String} {v : Node}
    (h : NWf (.dir cs)) (hv : NWf v) (hk : (lookupChild cs k).isSome) :
    NWf (.dir (setChild cs k v)) := by
  cases h with
  | dir hnd hall =>
    refine NWf.dir ?_ ?_
    · rw [keys_setChild_of_mem v hk]; exact hnd
    · intro e he
      rcases mem_setChild he with rfl | he
      · exact hv
      · exact hall _ he

theorem NWf_olookup {t : Fs} {p : List String} {n : Node}
    (hw : OWf t) (h : olookup t p = some n) : NWf n := by
  induction p generalizing t with
  | nil =>
    rw [olookup_nil] at h
    subst h
    exact hw
  | cons k ks ih =>
    match t with
    | none => simp at h
    | some (.file c b) => simp at h
    | some (.dir cs) =>
      rw [olookup_dir_cons] at h
      exact ih (OWf_lookupChild hw k) h

/-! ### `writeAt` lemmas -/

theorem writeAt_ok_self {d d' : Fs} {t : List String} {c : List Nat}
    (h : writeAt d t c = .ok d') : olookup d' t = some (.file c true) := by
  induction d, t, c using writeAt.induct generalizing d' with
  | case1 cs k c hl =>
    simp only [writeAt, hl] at h
    cases h
    simp [lookupChild_append_new, hl]
  | case2 cs k c c' b hl =>
    simp only [writeAt, hl] at h
    cases h
    simp
  | case3 cs k c cs' hl =>
    simp [writeAt, hl] at h
  | case4 cs k k2 ks c child hl child' hrec ih =>
    simp only [writeAt, hl, hrec] at h
    cases h
    simpa using ih hrec
  | case5 cs k k2 ks c child hl hrec =>
    simp [writeAt, hl, hrec] at h
  | case6 cs k k2 ks c child hl e hrec =>
    simp [writeAt, hl, hrec] at h
  | case7 cs k k2 ks c hl =>
    simp [writeAt, hl] at h
  | case8 => simp [writeAt] at h
  | case9 => simp [writeAt] at h
  | case10 => simp [writeAt] at h

/-- A successful write leaves every file at a different path untouched. -/
theorem writeAt_ok_file_frame {d d' : Fs} {t : List String} {c : List Nat}
    {r : List String} {c' : List Nat} {b : Bool}
    (h : writeAt d t c = .ok d') (hne : r ≠ t)
    (hf : olookup d r = some (.file c' b)) :
    olookup d' r = some (.file c' b) := by
  induction d, t, c using writeAt.induct generalizing d' r with
  | case1 cs k c hl =>
    simp only [writeAt, hl] at h
    cases h
    match r with
    | [] => simp at hf
    | x :: rs =>
      rw [olookup_dir_cons] at hf
      cases hlx : lookupChild cs x with
      | none => rw [hlx] at hf; simp at hf
      | some v =>
        rw [hlx] at hf
        simp [lookupChild_append_new, hlx, hf]
  | case2 cs k c c'' b'' hl =>
    simp only [writeAt, hl] at h
    cases h
    match r with
    | [] => simp at hf
    | x :: rs =>
      by_cases hx : x = k
      · subst hx
        rw [olookup_dir_cons, hl] at hf
        match rs with
        | [] => simp at hf; exact absurd rfl hne
        | y :: rs' => simp at hf
      · rw [olookup_dir_cons] at hf
        simp [lookupChild_setChild_ne _ _ hx, hf]
  | case3 cs k c cs' hl => simp [writeAt, hl] at h
  | case4 cs k k2 ks c child hl child' hrec ih =>
    simp only [writeAt, hl, hrec] at h
    cases h
    match r with
    | [] => simp at hf
    | x :: rs =>
      by_cases hx : x = k
      · subst hx
        rw [olookup_dir_cons, hl] at hf
        have hrs : rs ≠ k2 :: ks := by
          intro hh; exact hne (by rw [hh])
        have := ih hrec hrs hf
        simp [this]
      · rw [olookup_dir_cons] at hf
        simp [lookupChild_setChild_ne _ _ hx, hf]
  | case5 cs k k2 ks c child hl hrec => simp [writeAt, hl, hrec] at h
  | case6 cs k k2 ks c child hl e hrec => simp [writeAt, hl, hrec] at h
  | case7 cs k k2 ks c hl => simp [writeAt, hl] at h
  | case8 => simp [writeAt] at h
  | case9 => simp [writeAt] at h
  | case10 => simp [writeAt] at h

/-- A successful write keeps every directory a directory. -/
theorem writeAt_ok_dir_shape {d d' : Fs} {t : List String} {c : List Nat}
    {r : List String} {x : Entries}
    (h : writeAt d t c = .ok d') (hf : olookup d r = some (.dir x)) :
    ∃ x', olookup d' r = some (.dir x') := by
  induction d, t, c using writeAt.induct generalizing d' r with
  | case1 cs k c hl =>
    simp only [writeAt, hl] at h
    cases h
    match r with
    | [] => exact ⟨_, rfl⟩
    | y :: rs =>
      rw [olookup_dir_cons] at hf
      cases hly : lookupChild cs y with
      | none => rw [hly] at hf; simp at hf
      | some v =>
        rw [hly] at hf
        exact ⟨x, by simp [lookupChild_append_new, hly, hf]⟩
  | case2 cs k c c'' b'' hl =>
    simp only [writeAt, hl] at h
    cases h
    match r with
    | [] => exact ⟨_, rfl⟩
    | y :: rs =>
      by_cases hy : y = k
      · subst hy
        rw [olookup_dir_cons, hl] at hf
        match rs with
        | [] => simp at hf
        | z :: rs' => simp at hf
      · rw [olookup_dir_cons] at hf
        exact ⟨x, by simp [lookupChild_setChild_ne _ _ hy, hf]⟩
  | case3 cs k c cs' hl => simp [writeAt, hl] at h
  | case4 cs k k2 ks c child hl child' hrec ih =>
    simp only [writeAt, hl, hrec] at h
    cases h
    match r with
    | [] => exact ⟨_, rfl⟩
    | y :: rs =>
      by_cases hy : y = k
      · subst hy
        rw [olookup_dir_cons, hl] at hf
        obtain ⟨x', hx'⟩ := ih hrec hf
        exact ⟨x', by simp [hx']⟩
      · rw [olookup_dir_cons] at hf
        exact ⟨x, by simp [lookupChild_setChild_ne _ _ hy, hf]⟩
  | case5 cs k k2 ks c child hl hrec => simp [writeAt, hl, hrec] at h
  | case6 cs k k2 ks c child hl e hrec => simp [writeAt, hl, hrec] at h
  | case7 cs k k2 ks c hl => simp [writeAt, hl] at h
  | case8 => simp [writeAt] at h
  | case9 => simp [writeAt] at h
  | case10 => simp [writeAt] at h

/-- A successful write never makes an existing path disappear. -/
theorem writeAt_ok_isSome {d d' : Fs} {t : List String} {c : List Nat}
    {r : List String}
    (h : writeAt d t c = .ok d') (hf : (olookup d r).isSome) :
    (olookup d' r).isSome := by
  induction d, t, c using writeAt.induct generalizing d' r with
  | case1 cs k c hl =>
    simp only [writeAt, hl] at h
    cases h
    match r with
    | [] => simp
    | y :: rs =>
      rw [olookup_dir_cons] at hf
      cases hly : lookupChild cs y with
      | none => rw [hly] at hf; simp at hf
      | some v =>
        rw [hly] at hf
        simpa [lookupChild_append_new, hly] using hf
  | case2 cs k c c'' b'' hl =>
    simp only [writeAt, hl] at h
    cases h
    match r with
    | [] => simp
    | y :: rs =>
      by_cases hy : y = k
      · subst hy
        rw [olookup_dir_cons, hl] at hf
        match rs with
        | [] => simp
        | z :: rs' => simp at hf
      · rw [olookup_dir_cons] at hf
        simpa [lookupChild_setChild_ne _ _ hy] using hf
  | case3 cs k c cs' hl => simp [writeAt, hl] at h
  | case4 cs k k2 ks c child hl child' hrec ih =>
    simp only [writeAt, hl, hrec] at h
    cases h
    match r with
    | [] => simp
    | y :: rs =>
      by_cases hy : y = k
      · subst hy
        rw [olookup_dir_cons, hl] at hf
        simpa using ih hrec hf
      · rw [olookup_dir_cons] at hf
        simpa [lookupChild_setChild_ne _ _ hy] using hf
  | case5 cs k k2 ks c child hl hrec => simp [writeAt, hl, hrec] at h
  | case6 cs k k2 ks c child hl e hrec => simp [writeAt, hl, hrec] at h
  | case7 cs k k2 ks c hl => simp [writeAt, hl] at h
  | case8 => simp [writeAt] at h
  | case9 => simp [writeAt] at h
  | case10 => simp [writeAt] at h

/-- A successful write preserves well-formedness (unique sibling names). -/
theorem writeAt_ok_wf {d d' : Fs} {t : List String} {c : List Nat}
    (h : writeAt d t c = .ok d') (hw : OWf d) : OWf d' := by
  induction d, t, c using writeAt.induct generalizing d' with
  | case1 cs k c hl =>
    simp only [writeAt, hl] at h
    cases h
    cases hw with
    | dir hnd hall =>
      refine NWf.dir ?_ ?_
      · rw [List.map_append]
        simp only [List.map_cons, List.map_nil]
        rw [List.nodup_append]
        exact ⟨hnd, List.nodup_singleton _,
          by
            intro a ha hb
            simp at hb
            subst hb
            exact not_mem_keys_of_lookupChild_none hl ha⟩
      · intro e he
        rcases List.mem_append.1 he with he | he
        · exact hall _ he
        · simp at he
          subst he
          exact NWf.file
  | case2 cs k c c'' b'' hl =>
    simp only [writeAt, hl] at h
    cases h
    exact NWf_setChild hw NWf.file (by simp [hl])
  | case3 cs k c cs' hl => simp [writeAt, hl] at h
  | case4 cs k k2 ks c child hl child' hrec ih =>
    simp only [writeAt, hl, hrec] at h
    cases h
    have hcw : NWf child := NWf_child hw hl
    have : OWf (some child') := ih hrec hcw
    exact NWf_setChild hw this (by simp [hl])
  | case5 cs k k2 ks c child hl hrec => simp [writeAt, hl, hrec] at h
  | case6 cs k k2 ks c child hl e hrec => simp [writeAt, hl, hrec] at h
  | case7 cs k k2 ks c hl => simp [writeAt, hl] at h
  | case8 => simp [writeAt] at h
  | case9 => simp [writeAt] at h
  | case10 => simp [writeAt] at h

/-! ### `mkdirs` lemmas -/

theorem NWf_freshDirs (p : List String) : NWf (freshDirs p) := by
  induction p with
  | nil => exact NWf.dir (by simp) (by simp)
  | cons k ks ih =>
    refine NWf.dir (by simp) ?_
    intro e he
    simp [freshDirs] at he
    rw [he]
    exact ih

theorem olookup_freshDirs (p : List String) :
    olookup (some (freshDirs p)) p = some (.dir []) := by
  induction p with
  | nil => rfl
  | cons k ks ih => simpa [freshDirs, lookupChild] using ih

theorem setChild_eq_append_of_none {cs : Entries} {k : String} (v : Node)
    (h : lookupChild cs k = none) : setChild cs k v = cs ++ [(k, v)] := by
  induction cs with
  | nil => simp [setChild]
  | cons e rest ih =>
    obtain ⟨k', v'⟩ := e
    by_cases hk : k' = k
    · simp [lookupChild, hk] at h
    · simp only [lookupChild, if_neg hk] at h
      simp [setChild, hk, ih h]

/-- `setChild` preserves well-formedness whether it replaces or appends. -/
theorem NWf_setChild_any {cs : Entries} {k : String} {v : Node}
    (h : NWf (.dir cs)) (hv : NWf v) : NWf (.dir (setChild cs k v)) := by
  cases hl : lookupChild cs k with
  | some w => exact NWf_setChild h hv (by simp [hl])
  | none =>
    rw [setChild_eq_append_of_none v hl]
    cases h with
    | dir hnd hall =>
      refine NWf.dir ?_ ?_
      · rw [List.map_append]
        simp only [List.map_cons, List.map_nil]
        rw [List.nodup_append]
        exact ⟨hnd, List.nodup_singleton _,
          by
            intro a ha hb
            simp at hb
            subst hb
            exact not_mem_keys_of_lookupChild_none hl ha⟩
      · intro e he
        rcases List.mem_append.1 he with he | he
        · exact hall _ he
        · simp at he
          subst he
          exact hv

theorem mkdirsAux_ok_target {d : Fs} {p : List String} {n : Node}
    (h : mkdirsAux d p = .ok n) :
    ∃ cs, olookup (some n) p = some (.dir cs) := by
  induction d, p using mkdirsAux.induct generalizing n with
  | case1 p =>
    simp only [mkdirsAux] at h
    cases h
    exact ⟨[], olookup_freshDirs p⟩
  | case2 c b p => simp [mkdirsAux] at h
  | case3 cs =>
    simp only [mkdirsAux] at h
    cases h
    exact ⟨cs, by simp⟩
  | case4 cs k ks c hrec ih =>
    simp only [mkdirsAux, hrec] at h
    cases h
    obtain ⟨cs', hcs'⟩ := ih hrec
    exact ⟨cs', by simpa using hcs'⟩
  | case5 cs k ks e hrec => simp [mkdirsAux, hrec] at h

theorem mkdirsAux_ok_file_frame {d : Fs} {p : List String} {n : Node}
    {r : List String} {c' : List Nat} {b : Bool}
    (h : mkdirsAux d p = .ok n) (hf : olookup d r = some (.file c' b)) :
    olookup (some n) r = some (.file c' b) := by
  induction d, p using mkdirsAux.induct generalizing n r with
  | case1 p => simp at hf
  | case2 c b p => simp [mkdirsAux] at h
  | case3 cs =>
    simp only [mkdirsAux] at h
    cases h
    exact hf
  | case4 cs k ks c hrec ih =>
    simp only [mkdirsAux, hrec] at h
    cases h
    match r with
    | [] => simp at hf
    | x :: rs =>
      rw [olookup_dir_cons] at hf
      by_cases hx : x = k
      · subst hx
        have := ih hrec hf
        simpa using this
      · simp [lookupChild_setChild_ne _ _ hx, hf]
  | case5 cs k ks e hrec => simp [mkdirsAux, hrec] at h

theorem mkdirsAux_ok_dir_shape {d : Fs} {p : List String} {n : Node}
    {r : List String} {x : Entries}
    (h : mkdirsAux d p = .ok n) (hf : olookup d r = some (.dir x)) :
    ∃ x', olookup (some n) r = some (.dir x') := by
  induction d, p using mkdirsAux.induct generalizing n r with
  | case1 p => simp at hf
  | case2 c b p => simp [mkdirsAux] at h
  | case3 cs =>
    simp only [mkdirsAux] at h
    cases h
    exact ⟨x, hf⟩
  | case4 cs k ks c hrec ih =>
    simp only [mkdirsAux, hrec] at h
    cases h
    match r with
    | [] =>
      rw [olookup_nil] at hf ⊢
      exact ⟨_, rfl⟩
    | y :: rs =>
      rw [olookup_dir_cons] at hf
      by_cases hy : y = k
      · subst hy
        obtain ⟨x', hx'⟩ := ih hrec hf
        exact ⟨x', by simpa using hx'⟩
      · exact ⟨x, by simp [lookupChild_setChild_ne _ _ hy, hf]⟩
  | case5 cs k ks e hrec => simp [mkdirsAux, hrec] at h

theorem mkdirsAux_ok_isSome {d : Fs} {p : List String} {n : Node}
    {r : List String}
    (h : mkdirsAux d p = .ok n) (hf : (olookup d r).isSome) :
    (olookup (some n) r).isSome := by
  induction d, p using mkdirsAux.induct generalizing n r with
  | case1 p => simp at hf
  | case2 c b p => simp [mkdirsAux] at h
  | case3 cs =>
    simp only [mkdirsAux] at h
    cases h
    exact hf
  | case4 cs k ks c hrec ih =>
    simp only [mkdirsAux, hrec] at h
    cases h
    match r with
    | [] => simp
    | y :: rs =>
      rw [olookup_dir_cons] at hf
      by_cases hy : y = k
      · subst hy
        simpa using ih hrec hf
      · simpa [lookupChild_setChild_ne _ _ hy] using hf
  | case5 cs k ks e hrec => simp [mkdirsAux, hrec] at h

theorem mkdirsAux_ok_wf {d : Fs} {p : List String} {n : Node}
    (h : mkdirsAux d p = .ok n) (hw : OWf d) : NWf n := by
  induction d, p using mkdirsAux.induct generalizing n with
  | case1 p =>
    simp only [mkdirsAux] at h
    cases h
    exact NWf_freshDirs p
  | case2 c b p => simp [mkdirsAux] at h
  | case3 cs =>
    simp only [mkdirsAux] at h
    cases h
    exact hw
  | case4 cs k ks c hrec ih =>
    simp only [mkdirsAux, hrec] at h
    cases h
    exact NWf_setChild_any hw (ih hrec (OWf_lookupChild hw k))
  | case5 cs k ks e hrec => simp [mkdirsAux, hrec] at h

theorem mkdirs_ok_target {d d' : Fs} {p : List String}
    (h : mkdirs d p = .ok d') : ∃ cs, olookup d' p = some (.dir cs) := by
  unfold mkdirs at h
  cases hm : mkdirsAux d p with
  | ok n =>
    rw [hm] at h
    cases h
    exact mkdirsAux_ok_target hm
  | error e => rw [hm] at h; cases h

theorem mkdirs_ok_file_frame {d d' : Fs} {p : List String}
    {r : List String} {c' : List Nat} {b : Bool}
    (h : mkdirs d p = .ok d') (hf : olookup d r = some (.file c' b)) :
    olookup d' r = some (.file c' b) := by
  unfold mkdirs at h
  cases hm : mkdirsAux d p with
  | ok n =>
    rw [hm] at h
    cases h
    exact mkdirsAux_ok_file_frame hm hf
  | error e => rw [hm] at h; cases h

theorem mkdirs_ok_dir_shape {d d' : Fs} {p : List String}
    {r : List String} {x : Entries}
    (h : mkdirs d p = .ok d') (hf : olookup d r = some (.dir x)) :
    ∃ x', olookup d' r = some (.dir x') := by
  unfold mkdirs at h
  cases hm : mkdirsAux d p with
  | ok n =>
    rw [hm] at h
    cases h
    exact mkdirsAux_ok_dir_shape hm hf
  | error e => rw [hm] at h; cases h

theorem mkdirs_ok_isSome {d d' : Fs} {p : List String} {r : List String}
    (h : mkdirs d p = .ok d') (hf : (olookup d r).isSome) :
    (olookup d' r).isSome := by
  unfold mkdirs at h
  cases hm : mkdirsAux d p with
  | ok n =>
    rw [hm] at h
    cases h
    exact mkdirsAux_ok_isSome hm hf
  | error e => rw [hm] at h; cases h

theorem mkdirs_ok_wf {d d' : Fs} {p : List String}
    (h : mkdirs d p = .ok d') (hw : OWf d) : OWf d' := by
  unfold mkdirs at h
  cases hm : mkdirsAux d p with
  | ok n =>
    rw [hm] at h
    cases h
    exact mkdirsAux_ok_wf hm hw
  | error e => rw [hm] at h; cases h

/-! ### `Starts` and `removeAt` lemmas -/

theorem starts_nil (r : List String) : Starts [] r := ⟨r, rfl⟩

theorem starts_refl (t : List String) : Starts t t := ⟨[], by simp⟩

theorem starts_append (t r : List String) : Starts t (t ++ r) := ⟨r, rfl⟩

theorem starts_cons {k : String} {t r : List String} :
    Starts (k :: t) (k :: r) ↔ Starts t r := by
  constructor
  · rintro ⟨s, hs⟩
    exact ⟨s, by simpa using hs⟩
  · rintro ⟨s, hs⟩
    exact ⟨s, by simp [hs]⟩

theorem starts_of_cons_cons {k x : String} {t r : List String}
    (h : Starts (k :: t) (x :: r)) : k = x ∧ Starts t r := by
  obtain ⟨s, hs⟩ := h
  simp at hs
  exact ⟨hs.1, ⟨s, hs.2⟩⟩

theorem starts_nil_iff (t : List String) : Starts t [] ↔ t = [] := by
  constructor
  · rintro ⟨s, hs⟩
    exact List.append_eq_nil.1 hs |>.1
  · rintro rfl
    exact starts_nil []

theorem removeAt_isSome (n : Node) (t : List String) :
    (removeAt (some n) t).isSome := by
  match n, t with
  | n, [] => simp [removeAt]
  | .dir cs, [k] => simp [removeAt]
  | .dir cs, k :: k2 :: ks =>
    cases hl : lookupChild cs k with
    | none => simp [removeAt, hl]
    | some child =>
      cases hr : removeAt (some child) (k2 :: ks) with
      | none => simp [removeAt, hl, hr]
      | some child' => simp [removeAt, hl, hr]
  | .file c b, k :: ks => simp [removeAt]

@[simp] theorem removeAt_none (t : List String) : removeAt none t = none := by
  cases t <;> rfl

@[simp] theorem removeAt_nil (d : Fs) : removeAt d [] = d := by
  match d with
  | none => rfl
  | some (.file c b) => rfl
  | some (.dir cs) => rfl

theorem removeAt_dir_case6 {d : Fs} {ks : List String}
    (h1 : ∀ cs, d = some (Node.dir cs) → ks = [] → False)
    (h2 : ∀ cs k2 ks', d = some (Node.dir cs) → ks = k2 :: ks' → False) :
    (∀ cs, d ≠ some (Node.dir cs)) := by
  intro cs hcs
  match ks with
  | [] => exact h1 cs hcs rfl
  | k2 :: ks' => exact h2 cs k2 ks' hcs rfl

/-- Removal leaves every path it does not lie above untouched, for files. -/
theorem removeAt_file_frame {d : Fs} {t r : List String} {c : List Nat}
    {b : Bool} (hne : ¬ Starts t r)
    (hf : olookup d r = some (.file c b)) :
    olookup (removeAt d t) r = some (.file c b) := by
  induction d, t using removeAt.induct generalizing r with
  | case1 d => exact absurd (starts_nil r) hne
  | case2 cs k =>
    simp only [removeAt]
    match r with
    | [] => simp at hf
    | x :: rs =>
      rw [olookup_dir_cons] at hf ⊢
      by_cases hx : x = k
      · subst hx
        exact absurd (by exact ⟨rs, rfl⟩) hne
      · rw [lookupChild_removeChild_ne cs (fun hh => hx hh)]
        exact hf
  | case3 cs k k2 ks child hl child' hrec ih =>
    simp only [removeAt, hl, hrec]
    match r with
    | [] => simp at hf
    | x :: rs =>
      rw [olookup_dir_cons] at hf ⊢
      by_cases hx : x = k
      · subst hx
        rw [lookupChild_setChild_self]
        rw [hl] at hf
        have hns : ¬ Starts (k2 :: ks) rs := by
          intro hs
          exact hne (starts_cons.2 hs)
        have := ih hns hf
        rwa [hrec] at this
      · rw [lookupChild_setChild_ne _ _ hx]
        exact hf
  | case4 cs k k2 ks child hl hrec =>
    simp only [removeAt, hl, hrec]
    exact hf
  | case5 cs k k2 ks hl =>
    simp only [removeAt, hl]
    exact hf
  | case6 d k ks h1 h2 =>
    match d with
    | none => simpa using hf
    | some (.file c' b') => simp only [removeAt]; exact hf
    | some (.dir cs) => exact absurd rfl (removeAt_dir_case6 h1 h2 cs)

/-- Removal leaves every path it does not lie above present, any kind. -/
theorem removeAt_isSome_frame {d : Fs} {t r : List String}
    (hne : ¬ Starts t r) (hf : (olookup d r).isSome) :
    (olookup (removeAt d t) r).isSome := by
  induction d, t using removeAt.induct generalizing r with
  | case1 d => exact absurd (starts_nil r) hne
  | case2 cs k =>
    simp only [removeAt]
    match r with
    | [] => simp
    | x :: rs =>
      rw [olookup_dir_cons] at hf ⊢
      by_cases hx : x = k
      · subst hx
        exact absurd (by exact ⟨rs, rfl⟩) hne
      · rw [lookupChild_removeChild_ne cs (fun hh => hx hh)]
        exact hf
  | case3 cs k k2 ks child hl child' hrec ih =>
    simp only [removeAt, hl, hrec]
    match r with
    | [] => simp
    | x :: rs =>
      rw [olookup_dir_cons] at hf ⊢
      by_cases hx : x = k
      · subst hx
        rw [lookupChild_setChild_self]
        rw [hl] at hf
        have hns : ¬ Starts (k2 :: ks) rs := by
          intro hs
          exact hne (starts_cons.2 hs)
        have := ih hns hf
        rwa [hrec] at this
      · rw [lookupChild_setChild_ne _ _ hx]
        exact hf
  | case4 cs k k2 ks child hl hrec =>
    simp only [removeAt, hl, hrec]
    exact hf
  | case5 cs k k2 ks hl =>
    simp only [removeAt, hl]
    exact hf
  | case6 d k ks h1 h2 =>
    match d with
    | none => simpa using hf
    | some (.file c' b') => simp only [removeAt]; exact hf
    | some (.dir cs) => exact absurd rfl (removeAt_dir_case6 h1 h2 cs)

/-- On a well-formed tree, removal never makes a new path appear. -/
theorem removeAt_mono_isSome {d : Fs} {t r : List String} (hw : OWf d)
    (hf : (olookup (removeAt d t) r).isSome) : (olookup d r).isSome := by
  induction d, t using removeAt.induct generalizing r with
  | case1 d => rwa [removeAt_nil] at hf
  | case2 cs k =>
    simp only [removeAt] at hf
    match r with
    | [] => simp
    | x :: rs =>
      rw [olookup_dir_cons] at hf ⊢
      by_cases hx : x = k
      · subst hx
        rw [lookupChild_removeChild_self (by cases hw with | dir hnd _ => exact hnd)] at hf
        simp at hf
      · rwa [lookupChild_removeChild_ne cs (fun hh => hx hh)] at hf
  | case3 cs k k2 ks child hl child' hrec ih =>
    simp only [removeAt, hl, hrec] at hf
    match r with
    | [] => simp
    | x :: rs =>
      rw [olookup_dir_cons] at hf ⊢
      by_cases hx : x = k
      · subst hx
        rw [lookupChild_setChild_self] at hf
        rw [hl]
        have hcw : OWf (some child) := NWf_child hw hl
        refine ih hcw ?_
        rwa [hrec]
      · rwa [lookupChild_setChild_ne _ _ hx] at hf
  | case4 cs k k2 ks child hl hrec =>
    simpa only [removeAt, hl, hrec] using hf
  | case5 cs k k2 ks hl =>
    simpa only [removeAt, hl] using hf
  | case6 d k ks h1 h2 =>
    match d with
    | none => simpa using hf
    | some (.file c' b') => simpa only [removeAt] using hf
    | some (.dir cs) => exact absurd rfl (removeAt_dir_case6 h1 h2 cs)

/-- On a well-formed tree, removal really empties the target path. -/
theorem removeAt_self_none {d : Fs} {t : List String} (hw : OWf d)
    (ht : t ≠ []) : olookup (removeAt d t) t = none := by
  induction d, t using removeAt.induct with
  | case1 d => exact absurd rfl ht
  | case2 cs k =>
    simp only [removeAt, olookup_dir_cons]
    rw [lookupChild_removeChild_self (by cases hw with | dir hnd _ => exact hnd)]
    simp
  | case3 cs k k2 ks child hl child' hrec ih =>
    simp only [removeAt, hl, hrec, olookup_dir_cons, lookupChild_setChild_self]
    have hcw : OWf (some child) := NWf_child hw hl
    have := ih hcw (by simp)
    rwa [hrec] at this
  | case4 cs k k2 ks child hl hrec =>
    have h0 := removeAt_isSome child (k2 :: ks)
    rw [hrec] at h0
    simp at h0
  | case5 cs k k2 ks hl =>
    simp [removeAt, hl]
  | case6 d k ks h1 h2 =>
    match d with
    | none => simp
    | some (.file c' b') => simp [removeAt]
    | some (.dir cs) => exact absurd rfl (removeAt_dir_case6 h1 h2 cs)

/-- Removal preserves well-formedness. -/
theorem removeAt_wf {d : Fs} {t : List String} (hw : OWf d) :
    OWf (removeAt d t) := by
  induction d, t using removeAt.induct with
  | case1 d => rwa [removeAt_nil]
  | case2 cs k =>
    simp only [removeAt]
    cases hw with
    | dir hnd hall =>
      refine NWf.dir ?_ ?_
      · exact hnd.sublist (keys_removeChild_sublist cs k)
      · intro e he
        exact hall _ (mem_removeChild he)
  | case3 cs k k2 ks child hl child' hrec ih =>
    simp only [removeAt, hl, hrec]
    have hcw : OWf (some child) := NWf_child hw hl
    have : OWf (removeAt (some child) (k2 :: ks)) := ih hcw
    rw [hrec] at this
    exact NWf_setChild_any hw this
  | case4 cs k k2 ks child hl hrec =>
    simpa only [removeAt, hl, hrec] using hw
  | case5 cs k k2 ks hl =>
    simpa only [removeAt, hl] using hw
  | case6 d k ks h1 h2 =>
    match d with
    | none => simp [OWf]
    | some (.file c' b') => simpa only [removeAt] using hw
    | some (.dir cs) => exact absurd rfl (removeAt_dir_case6 h1 h2 cs)

/-! ### Walk coverage and soundness -/

/-- Structural induction over nodes through the nested children lists. -/
theorem node_ind {motive : Node → Prop} (hfile : ∀ c b, motive (.file c b))
    (hdir : ∀ cs, (∀ e ∈ cs, motive e.2) → motive (.dir cs)) :
    ∀ n, motive n
  | .file c b => hfile c b
  | .dir cs => hdir cs (fun e he => node_ind hfile hdir e.2)
termination_by n => sizeOf n
decreasing_by
  have h1 := List.sizeOf_lt_of_mem he
  obtain ⟨a, b⟩ := e
  simp at h1 ⊢
  omega

theorem lookupChild_of_mem_nodup {cs : Entries} {k : String} {v : Node}
    (hnd : (cs.map Prod.fst).Nodup) (hm : (k, v) ∈ cs) :
    lookupChild cs k = some v := by
  induction cs with
  | nil => simp at hm
  | cons e rest ih =>
    obtain ⟨k', v'⟩ := e
    simp only [List.map_cons, List.nodup_cons] at hnd
    rcases List.mem_cons.1 hm with hm | hm
    · cases hm
      simp [lookupChild]
    · have hk : k' ≠ k := by
        intro hh
        subst hh
        exact hnd.1 (List.mem_map_of_mem Prod.fst hm)
      simp only [lookupChild, if_neg hk]
      exact ih hnd.2 hm

theorem mem_fileNames_of_lookup {cs : Entries} {f : String} {c : List Nat}
    {b : Bool} (h : lookupChild cs f = some (.file c b)) : f ∈ fileNames cs := by
  induction cs with
  | nil => simp [lookupChild] at h
  | cons e rest ih =>
    obtain ⟨k', v'⟩ := e
    by_cases hk : k' = f
    · subst hk
      simp only [lookupChild, if_pos rfl] at h
      cases h
      simp [fileNames]
    · simp only [lookupChild, if_neg hk] at h
      cases v' with
      | file c' b' => simp [fileNames, ih h]
      | dir cs' => simp [fileNames, ih h]

theorem mem_dirNames_of_lookup {cs : Entries} {d : String} {x : Entries}
    (h : lookupChild cs d = some (.dir x)) : d ∈ dirNames cs := by
  induction cs with
  | nil => simp [lookupChild] at h
  | cons e rest ih =>
    obtain ⟨k', v'⟩ := e
    by_cases hk : k' = d
    · subst hk
      simp only [lookupChild, if_pos rfl] at h
      cases h
      simp [dirNames]
    · simp only [lookupChild, if_neg hk] at h
      cases v' with
      | file c' b' => simp [dirNames, ih h]
      | dir cs' => simp [dirNames, ih h]

theorem mem_keys_of_mem_fileNames {cs : Entries} {f : String}
    (h : f ∈ fileNames cs) : f ∈ cs.map Prod.fst := by
  induction cs with
  | nil => simp [fileNames] at h
  | cons e rest ih =>
    obtain ⟨k', v'⟩ := e
    cases v' with
    | file c b =>
      simp only [fileNames, List.mem_cons] at h
      rcases h with h | h
      · simp [h]
      · simp [ih h]
    | dir cs' =>
      simp only [fileNames] at h
      simp [ih h]

theorem mem_keys_of_mem_dirNames {cs : Entries} {d : String}
    (h : d ∈ dirNames cs) : d ∈ cs.map Prod.fst := by
  induction cs with
  | nil => simp [dirNames] at h
  | cons e rest ih =>
    obtain ⟨k', v'⟩ := e
    cases v' with
    | dir cs' =>
      simp only [dirNames, List.mem_cons] at h
      rcases h with h | h
      · simp [h]
      · simp [ih h]
    | file c b =>
      simp only [dirNames] at h
      simp [ih h]

theorem lookup_of_mem_fileNames {cs : Entries} {f : String}
    (hnd : (cs.map Prod.fst).Nodup) (hf : f ∈ fileNames cs) :
    ∃ c b, lookupChild cs f = some (.file c b) := by
  induction cs with
  | nil => simp [fileNames] at hf
  | cons e rest ih =>
    obtain ⟨k', v'⟩ := e
    simp only [List.map_cons, List.nodup_cons] at hnd
    cases v' with
    | file c' b' =>
      simp only [fileNames, List.mem_cons] at hf
      by_cases hk : k' = f
      · subst hk
        exact ⟨c', b', by simp [lookupChild]⟩
      · rcases hf with hf | hf
        · exact absurd hf.symm hk
        · obtain ⟨c, b, hcb⟩ := ih hnd.2 hf
          exact ⟨c, b, by simp [lookupChild, hk, hcb]⟩
    | dir cs' =>
      simp only [fileNames] at hf
      by_cases hk : k' = f
      · subst hk
        exact absurd (mem_keys_of_mem_fileNames hf) hnd.1
      · obtain ⟨c, b, hcb⟩ := ih hnd.2 hf
        exact ⟨c, b, by simp [lookupChild, hk, hcb]⟩

theorem lookup_of_mem_dirNames {cs : Entries} {d : String}
    (hnd : (cs.map Prod.fst).Nodup) (hd : d ∈ dirNames cs) :
    ∃ x, lookupChild cs d = some (.dir x) := by
  induction cs with
  | nil => simp [dirNames] at hd
  | cons e rest ih =>
    obtain ⟨k', v'⟩ := e
    simp only [List.map_cons, List.nodup_cons] at hnd
    cases v' with
    | dir cs' =>
      simp only [dirNames, List.mem_cons] at hd
      by_cases hk : k' = d
      · subst hk
        exact ⟨cs', by simp [lookupChild]⟩
      · rcases hd with hd | hd
        · exact absurd hd.symm hk
        · obtain ⟨x, hx⟩ := ih hnd.2 hd
          exact ⟨x, by simp [lookupChild, hk, hx]⟩
    | file c' b' =>
      simp only [dirNames] at hd
      by_cases hk : k' = d
      · subst hk
        exact absurd (mem_keys_of_mem_dirNames hd) hnd.1
      · obtain ⟨x, hx⟩ := ih hnd.2 hd
        exact ⟨x, by simp [lookupChild, hk, hx]⟩

theorem walkPreChildren_mem {cs : Entries} {base : List String} {k : String}
    {ccs : Entries} {t : Triple} (hm : (k, Node.dir ccs) ∈ cs)
    (h : t ∈ walkPre (.dir ccs) (base ++ [k])) :
    t ∈ walkPreChildren cs base := by
  induction cs with
  | nil => simp at hm
  | cons e rest ih =>
    obtain ⟨k', v'⟩ := e
    rcases List.mem_cons.1 hm with hm2 | hm2
    · cases hm2
      rw [walkPreChildren]
      exact List.mem_append.2 (Or.inl h)
    · cases v' with
      | dir cs' =>
        rw [walkPreChildren]
        exact List.mem_append.2 (Or.inr (ih hm2))
      | file c b =>
        rw [walkPreChildren]
        exact ih hm2

theorem mem_walkPreChildren {cs : Entries} {base : List String} {t : Triple}
    (h : t ∈ walkPreChildren cs base) :
    ∃ k ccs, (k, Node.dir ccs) ∈ cs ∧ t ∈ walkPre (.dir ccs) (base ++ [k]) := by
  induction cs with
  | nil => simp [walkPreChildren] at h
  | cons e rest ih =>
    obtain ⟨k', v'⟩ := e
    cases v' with
    | dir cs' =>
      rw [walkPreChildren] at h
      rcases List.mem_append.1 h with h2 | h2
      · exact ⟨k', cs', List.mem_cons.2 (Or.inl rfl), h2⟩
      · obtain ⟨k, ccs, hm, ht⟩ := ih h2
        exact ⟨k, ccs, List.mem_cons_of_mem _ hm, ht⟩
    | file c b =>
      rw [walkPreChildren] at h
      obtain ⟨k, ccs, hm, ht⟩ := ih h
      exact ⟨k, ccs, List.mem_cons_of_mem _ hm, ht⟩

theorem walkBottomChildren_mem {cs : Entries} {base : List String} {k : String}
    {ccs : Entries} {t : Triple} (hm : (k, Node.dir ccs) ∈ cs)
    (h : t ∈ walkBottom (.dir ccs) (base ++ [k])) :
    t ∈ walkBottomChildren cs base := by
  induction cs with
  | nil => simp at hm
  | cons e rest ih =>
    obtain ⟨k', v'⟩ := e
    rcases List.mem_cons.1 hm with hm2 | hm2
    · cases hm2
      rw [walkBottomChildren]
      exact List.mem_append.2 (Or.inl h)
    · cases v' with
      | dir cs' =>
        rw [walkBottomChildren]
        exact List.mem_append.2 (Or.inr (ih hm2))
      | file c b =>
        rw [walkBottomChildren]
        exact ih hm2

theorem mem_walkBottomChildren {cs : Entries} {base : List String} {t : Triple}
    (h : t ∈ walkBottomChildren cs base) :
    ∃ k ccs, (k, Node.dir ccs) ∈ cs ∧ t ∈ walkBottom (.dir ccs) (base ++ [k]) := by
  induction cs with
  | nil => simp [walkBottomChildren] at h
  | cons e rest ih =>
    obtain ⟨k', v'⟩ := e
    cases v' with
    | dir cs' =>
      rw [walkBottomChildren] at h
      rcases List.mem_append.1 h with h2 | h2
      · exact ⟨k', cs', List.mem_cons.2 (Or.inl rfl), h2⟩
      · obtain ⟨k, ccs, hm, ht⟩ := ih h2
        exact ⟨k, ccs, List.mem_cons_of_mem _ hm, ht⟩
    | file c b =>
      rw [walkBottomChildren] at h
      obtain ⟨k, ccs, hm, ht⟩ := ih h
      exact ⟨k, ccs, List.mem_cons_of_mem _ hm, ht⟩

/-- Every directory the lookup can resolve is visited by the top-down walk. -/
theorem mem_walkPre_of_dir {p : List String} :
    ∀ {n : Node} {base : List String} {cs' : Entries},
      olookup (some n) p = some (.dir cs') →
      (base ++ p, dirNames cs', fileNames cs') ∈ walkPre n base := by
  induction p with
  | nil =>
    intro n base cs' h
    rw [olookup_nil] at h
    cases h
    rw [walkPre]
    simp
  | cons k p' ih =>
    intro n base cs' h
    match n with
    | .file c b => simp at h
    | .dir cs =>
      rw [olookup_dir_cons] at h
      cases hl : lookupChild cs k with
      | none => rw [hl] at h; simp at h
      | some child =>
        rw [hl] at h
        match child with
        | .file c b =>
          exfalso
          match p' with
          | [] => simp at h
          | _ :: _ => simp at h
        | .dir ccs =>
          have hm := lookupChild_mem hl
          have ht := @ih (.dir ccs) (base ++ [k]) _ h
          rw [walkPre]
          refine List.mem_cons_of_mem _ ?_
          have := walkPreChildren_mem hm ht
          simpa using this

/-- Every directory the lookup can resolve is visited by the bottom-up walk. -/
theorem mem_walkBottom_of_dir {p : List String} :
    ∀ {n : Node} {base : List String} {cs' : Entries},
      olookup (some n) p = some (.dir cs') →
      (base ++ p, dirNames cs', fileNames cs') ∈ walkBottom n base := by
  induction p with
  | nil =>
    intro n base cs' h
    rw [olookup_nil] at h
    cases h
    rw [walkBottom]
    simp
  | cons k p' ih =>
    intro n base cs' h
    match n with
    | .file c b => simp at h
    | .dir cs =>
      rw [olookup_dir_cons] at h
      cases hl : lookupChild cs k with
      | none => rw [hl] at h; simp at h
      | some child =>
        rw [hl] at h
        match child with
        | .file c b =>
          exfalso
          match p' with
          | [] => simp at h
          | _ :: _ => simp at h
        | .dir ccs =>
          have hm := lookupChild_mem hl
          have ht := @ih (.dir ccs) (base ++ [k]) _ h
          rw [walkBottom]
          refine List.mem_append.2 (Or.inl ?_)
          have := walkBottomChildren_mem hm ht
          simpa using this

/-- Under unique sibling names, every triple the top-down walk yields is the
lookup view of a real directory of the tree. -/
theorem walkPre_sound :
    ∀ n, NWf n → ∀ (base p ds fs : List String),
      (p, ds, fs) ∈ walkPre n base →
      ∃ p' cs, p = base ++ p' ∧ olookup (some n) p' = some (.dir cs) ∧
        ds = dirNames cs ∧ fs = fileNames cs := by
  refine node_ind ?_ ?_
  · intro c b hw base p ds fs h
    simp [walkPre] at h
  · intro cs ih hw base p ds fs h
    rw [walkPre] at h
    rcases List.mem_cons.1 h with h2 | h2
    · simp only [Prod.mk.injEq] at h2
      obtain ⟨rfl, rfl, rfl⟩ := h2
      exact ⟨[], cs, by simp, by simp, rfl, rfl⟩
    · obtain ⟨k, ccs, hm, ht⟩ := mem_walkPreChildren h2
      cases hw with
      | dir hnd hall =>
        have hwf : NWf (Node.dir ccs) := hall _ hm
        obtain ⟨p', cs', hp, hol, hds, hfs⟩ :=
          ih (k, Node.dir ccs) hm hwf (base ++ [k]) p ds fs ht
        refine ⟨k :: p', cs', ?_, ?_, hds, hfs⟩
        · rw [hp]; simp
        · rw [olookup_dir_cons, lookupChild_of_mem_nodup hnd hm]
          exact hol

/-- Under unique sibling names, every triple the bottom-up walk yields is the
lookup view of a real directory of the tree. -/
theorem walkBottom_sound :
    ∀ n, NWf n → ∀ (base p ds fs : List String),
      (p, ds, fs) ∈ walkBottom n base →
      ∃ p' cs, p = base ++ p' ∧ olookup (some n) p' = some (.dir cs) ∧
        ds = dirNames cs ∧ fs = fileNames cs := by
  refine node_ind ?_ ?_
  · intro c b hw base p ds fs h
    simp [walkBottom] at h
  · intro cs ih hw base p ds fs h
    rw [walkBottom] at h
    rcases List.mem_append.1 h with h2 | h2
    · obtain ⟨k, ccs, hm, ht⟩ := mem_walkBottomChildren h2
      cases hw with
      | dir hnd hall =>
        have hwf : NWf (Node.dir ccs) := hall _ hm
        obtain ⟨p', cs', hp, hol, hds, hfs⟩ :=
          ih (k, Node.dir ccs) hm hwf (base ++ [k]) p ds fs ht
        refine ⟨k :: p', cs', ?_, ?_, hds, hfs⟩
        · rw [hp]; simp
        · rw [olookup_dir_cons, lookupChild_of_mem_nodup hnd hm]
          exact hol
    · simp only [List.mem_singleton, Prod.mk.injEq] at h2
      obtain ⟨rfl, rfl, rfl⟩ := h2
      exact ⟨[], cs, by simp, by simp, rfl, rfl⟩

/-! ### Characterizing successful phase-1 steps -/

theorem ensureRoot_ok_cases {s s' : PassState} {p : List String}
    (h : ensureRoot s p = (s', none)) :
    (destDirExists s.dst p = true ∧ s' = s) ∨
    (destDirExists s.dst p = false ∧ ∃ d', mkdirs s.dst p = .ok d' ∧
      s' = ⟨s.src, d', s.events ++ [.createdDir p]⟩) := by
  unfold ensureRoot at h
  by_cases hex : destDirExists s.dst p
  · rw [if_pos hex] at h
    cases h
    exact Or.inl ⟨hex, rfl⟩
  · rw [if_neg hex] at h
    cases hm : mkdirs s.dst p with
    | ok d' =>
      rw [hm] at h
      cases h
      exact Or.inr ⟨by simpa using hex, d', rfl, rfl⟩
    | error e => rw [hm] at h; cases h

theorem step1dir_ok_cases {s s' : PassState} {q : List String}
    (h : step1dir s q = (s', none)) :
    (pexists s.dst q = true ∧ s' = s) ∨
    (pexists s.dst q = false ∧ ∃ d', mkdirs s.dst q = .ok d' ∧
      s' = ⟨s.src, d', s.events ++ [.createdDir q]⟩) := by
  unfold step1dir at h
  by_cases hex : pexists s.dst q
  · rw [if_pos hex] at h
    cases h
    exact Or.inl ⟨hex, rfl⟩
  · rw [if_neg hex] at h
    cases hm : mkdirs s.dst q with
    | ok d' =>
      rw [hm] at h
      cases h
      exact Or.inr ⟨by simpa using hex, d', rfl, rfl⟩
    | error e => rw [hm] at h; cases h

theorem step1file_ok_cases {s s' : PassState} {p : List String} {f : String}
    (h : step1file s p f = (s', none)) :
    (∃ sm, calc_md5 (olookup s.src (p ++ [f])) = .ok sm ∧
      (if pexists s.dst (p ++ [f]) then calc_md5 (olookup s.dst (p ++ [f]))
       else .ok none) = .ok sm ∧ s' = s) ∨
    (∃ c dm d', olookup s.src (p ++ [f]) = some (.file c true) ∧
      (if pexists s.dst (p ++ [f]) then calc_md5 (olookup s.dst (p ++ [f]))
       else .ok none) = .ok dm ∧ some c ≠ dm ∧
      writeAt s.dst (p ++ [f]) c = .ok d' ∧
      s' = ⟨s.src, d',
        s.events ++ [if dm = none then Event.copiedNewFile (p ++ [f])
                     else Event.updatedFile (p ++ [f])]⟩) := by
  unfold step1file at h
  cases hsm : calc_md5 (olookup s.src (p ++ [f])) with
  | error e => rw [hsm] at h; dsimp only at h; cases h
  | ok sm =>
    rw [hsm] at h
    dsimp only at h
    cases hdm : (if pexists s.dst (p ++ [f]) then
        calc_md5 (olookup s.dst (p ++ [f])) else .ok none) with
    | error e => rw [hdm] at h; dsimp only at h; cases h
    | ok dm =>
      rw [hdm] at h
      dsimp only at h
      by_cases hne : sm ≠ dm
      · rw [if_pos hne] at h
        cases hcp : copy2 s.src (p ++ [f]) s.dst (p ++ [f]) with
        | error e => rw [hcp] at h; cases h
        | ok d' =>
          rw [hcp] at h
          cases h
          unfold copy2 at hcp
          cases hol : olookup s.src (p ++ [f]) with
          | none => rw [hol] at hcp; cases hcp
          | some v =>
            match v with
            | .file c true =>
              rw [hol] at hcp
              rw [hol] at hsm
              unfold calc_md5 at hsm
              have hsm' : sm = some c := (Except.ok.injEq .. ▸ hsm).symm
              subst hsm'
              exact Or.inr ⟨c, dm, d', rfl, rfl, hne, hcp, rfl⟩
            | .file c false => rw [hol] at hcp; cases hcp
            | .dir cs => rw [hol] at hcp; cases hcp
      · rw [if_neg hne] at h
        cases h
        push_neg at hne
        subst hne
        exact Or.inl ⟨sm, rfl, rfl, rfl⟩

/-! ### Source tree constancy -/

theorem ensureRoot_src (s : PassState) (p : List String) :
    (ensureRoot s p).1.src = s.src := by
  unfold ensureRoot
  split
  · rfl
  · cases hm : mkdirs s.dst p <;> simp [hm]

theorem step1dir_src (s : PassState) (q : List String) :
    (step1dir s q).1.src = s.src := by
  unfold step1dir
  split
  · rfl
  · cases hm : mkdirs s.dst q <;> simp [hm]

theorem step1file_src (s : PassState) (p : List String) (f : String) :
    (step1file s p f).1.src = s.src := by
  unfold step1file
  cases hsm : calc_md5 (olookup s.src (p ++ [f])) with
  | error e => rfl
  | ok sm =>
    dsimp only
    cases hdm : (if pexists s.dst (p ++ [f]) then
        calc_md5 (olookup s.dst (p ++ [f])) else .ok none) with
    | error e => rfl
    | ok dm =>
      dsimp only
      by_cases hne : sm ≠ dm
      · rw [if_pos hne]
        cases hcp : copy2 s.src (p ++ [f]) s.dst (p ++ [f]) <;> simp [hcp]
      · rw [if_neg hne]

theorem step1dirs_src (s : PassState) (p : List String) (ds : List String) :
    (step1dirs s p ds).1.src = s.src := by
  induction ds generalizing s with
  | nil => rfl
  | cons d ds ih =>
    rw [step1dirs]
    cases hq : step1dir s (p ++ [d]) with
    | mk s1 e =>
      have h1 : s1.src = s.src := by
        have := step1dir_src s (p ++ [d])
        rwa [hq] at this
      cases e with
      | none => rw [ih s1, h1]
      | some e => exact h1

theorem step1files_src (s : PassState) (p : List String) (fs : List String) :
    (step1files s p fs).1.src = s.src := by
  induction fs generalizing s with
  | nil => rfl
  | cons f fs ih =>
    rw [step1files]
    cases hq : step1file s p f with
    | mk s1 e =>
      have h1 : s1.src = s.src := by
        have := step1file_src s p f
        rwa [hq] at this
      cases e with
      | none => rw [ih s1, h1]
      | some e => exact h1

theorem step1_src (s : PassState) (t : Triple) :
    (step1 s t).1.src = s.src := by
  unfold step1
  cases h1 : ensureRoot s t.1 with
  | mk s1 e1 =>
    have hs1 : s1.src = s.src := by
      have := ensureRoot_src s t.1
      rwa [h1] at this
    cases e1 with
    | some e =>
      dsimp only
      exact hs1
    | none =>
      dsimp only
      cases h2 : step1dirs s1 t.1 t.2.1 with
      | mk s2 e2 =>
        have hs2 : s2.src = s1.src := by
          have := step1dirs_src s1 t.1 t.2.1
          rwa [h2] at this
        cases e2 with
        | some e =>
          dsimp only
          exact hs2.trans hs1
        | none =>
          dsimp only
          have := step1files_src s2 t.1 t.2.2
          rw [this, hs2, hs1]

theorem runPhase1_src (s : PassState) (ts : List Triple) :
    (runPhase1 s ts).1.src = s.src := by
  induction ts generalizing s with
  | nil => rfl
  | cons t ts ih =>
    rw [runPhase1]
    cases hq : step1 s t with
    | mk s1 e =>
      have h1 : s1.src = s.src := by
        have := step1_src s t
        rwa [hq] at this
      cases e with
      | none => rw [ih s1, h1]
      | some e => exact h1

theorem step2file_src (s : PassState) (q : List String) :
    (step2file s q).src = s.src := by
  unfold step2file
  split <;> rfl

theorem step2dir_src (s : PassState) (q : List String) :
    (step2dir s q).src = s.src := by
  unfold step2dir
  split <;> rfl

theorem step2files_src (s : PassState) (p : List String) (fs : List String) :
    (step2files s p fs).src = s.src := by
  induction fs generalizing s with
  | nil => rfl
  | cons f fs ih =>
    rw [step2files, ih, step2file_src]

theorem step2dirs_src (s : PassState) (p : List String) (ds : List String) :
    (step2dirs s p ds).src = s.src := by
  induction ds generalizing s with
  | nil => rfl
  | cons d ds ih =>
    rw [step2dirs, ih, step2dir_src]

theorem step2_src (s : PassState) (t : Triple) :
    (step2 s t).src = s.src := by
  unfold step2
  rw [step2dirs_src, step2files_src]

theorem runPhase2_src (s : PassState) (ts : List Triple) :
    (runPhase2 s ts).src = s.src := by
  induction ts generalizing s with
  | nil => rfl
  | cons t ts ih =>
    rw [runPhase2, ih, step2_src]

/-! ### Generic preservation through a pass -/

/-- Predicates on the pass state stable under every mutation phase 1 can
make on success: a `mkdirs` into the destination, or a `copy2` of a readable
source file into the destination (plus event logging). -/
def Stable1 (P : PassState → Prop) : Prop :=
  ∀ (s : PassState) (d' : Fs) (evs : List Event),
    ((∃ q, mkdirs s.dst q = .ok d') ∨
     (∃ q c, olookup s.src q = some (.file c true) ∧
        writeAt s.dst q c = .ok d')) →
    P s → P ⟨s.src, d', s.events ++ evs⟩

/-- Predicates stable under every mutation phase 2 can make: removal of a
nonempty destination path that does not exist under source. -/
def Stable2 (P : PassState → Prop) : Prop :=
  ∀ (s : PassState) (q : List String) (evs : List Event), q ≠ [] →
    pexists s.src q = false →
    P s → P ⟨s.src, removeAt s.dst q, s.events ++ evs⟩

theorem ensureRoot_ok_pres {P : PassState → Prop} (hP : Stable1 P)
    {s s' : PassState} {p : List String}
    (h : ensureRoot s p = (s', none)) (hp : P s) : P s' := by
  rcases ensureRoot_ok_cases h with ⟨_, rfl⟩ | ⟨_, d', hm, rfl⟩
  · exact hp
  · exact hP s d' _ (Or.inl ⟨p, hm⟩) hp

theorem step1dir_ok_pres {P : PassState → Prop} (hP : Stable1 P)
    {s s' : PassState} {q : List String}
    (h : step1dir s q = (s', none)) (hp : P s) : P s' := by
  rcases step1dir_ok_cases h with ⟨_, rfl⟩ | ⟨_, d', hm, rfl⟩
  · exact hp
  · exact hP s d' _ (Or.inl ⟨q, hm⟩) hp

theorem step1file_ok_pres {P : PassState → Prop} (hP : Stable1 P)
    {s s' : PassState} {p : List String} {f : String}
    (h : step1file s p f = (s', none)) (hp : P s) : P s' := by
  rcases step1file_ok_cases h with ⟨sm, _, _, rfl⟩ |
    ⟨c, dm, d', hol, _, _, hw, rfl⟩
  · exact hp
  · exact hP s d' _ (Or.inr ⟨p ++ [f], c, hol, hw⟩) hp

theorem step1dirs_ok_pres {P : PassState → Prop} (hP : Stable1 P)
    {s s' : PassState} {p : List String} {ds : List String}
    (h : step1dirs s p ds = (s', none)) (hp : P s) : P s' := by
  induction ds generalizing s with
  | nil =>
    rw [step1dirs] at h
    injection h with h1 h2
    subst h1
    exact hp
  | cons d ds ih =>
    rw [step1dirs] at h
    cases hq : step1dir s (p ++ [d]) with
    | mk s1 e =>
      rw [hq] at h
      cases e with
      | none => exact ih h (step1dir_ok_pres hP hq hp)
      | some e => simp at h

theorem step1files_ok_pres {P : PassState → Prop} (hP : Stable1 P)
    {s s' : PassState} {p : List String} {fs : List String}
    (h : step1files s p fs = (s', none)) (hp : P s) : P s' := by
  induction fs generalizing s with
  | nil =>
    rw [step1files] at h
    injection h with h1 h2
    subst h1
    exact hp
  | cons f fs ih =>
    rw [step1files] at h
    cases hq : step1file s p f with
    | mk s1 e =>
      rw [hq] at h
      cases e with
      | none => exact ih h (step1file_ok_pres hP hq hp)
      | some e => simp at h

theorem step1_ok_decomp {s s' : PassState} {t : Triple}
    (h : step1 s t = (s', none)) :
    ∃ s1 s2, ensureRoot s t.1 = (s1, none) ∧
      step1dirs s1 t.1 t.2.1 = (s2, none) ∧
      step1files s2 t.1 t.2.2 = (s', none) := by
  unfold step1 at h
  cases h1 : ensureRoot s t.1 with
  | mk s1 e1 =>
    rw [h1] at h
    cases e1 with
    | some e => simp at h
    | none =>
      dsimp only at h
      cases h2 : step1dirs s1 t.1 t.2.1 with
      | mk s2 e2 =>
        rw [h2] at h
        cases e2 with
        | some e => simp at h
        | none =>
          dsimp only at h
          exact ⟨s1, s2, rfl, h2, h⟩

theorem step1_ok_pres {P : PassState → Prop} (hP : Stable1 P)
    {s s' : PassState} {t : Triple}
    (h : step1 s t = (s', none)) (hp : P s) : P s' := by
  obtain ⟨s1, s2, h1, h2, h3⟩ := step1_ok_decomp h
  exact step1files_ok_pres hP h3
    (step1dirs_ok_pres hP h2 (ensureRoot_ok_pres hP h1 hp))

theorem runPhase1_ok_pres {P : PassState → Prop} (hP : Stable1 P)
    {s s' : PassState} {ts : List Triple}
    (h : runPhase1 s ts = (s', none)) (hp : P s) : P s' := by
  induction ts generalizing s with
  | nil =>
    rw [runPhase1] at h
    injection h with h1 h2
    subst h1
    exact hp
  | cons t ts ih =>
    rw [runPhase1] at h
    cases hq : step1 s t with
    | mk s1 e =>
      rw [hq] at h
      cases e with
      | none => exact ih h (step1_ok_pres hP hq hp)
      | some e => simp at h

theorem step2file_pres {P : PassState → Prop} (hP : Stable2 P)
    {s : PassState} {q : List String} (hq : q ≠ [])
    (hp : P s) : P (step2file s q) := by
  unfold step2file
  by_cases hex : pexists s.src q
  · rw [if_pos hex]
    exact hp
  · rw [if_neg hex]
    exact hP s q _ hq (by simpa using hex) hp

theorem step2dir_pres {P : PassState → Prop} (hP : Stable2 P)
    {s : PassState} {q : List String} (hq : q ≠ [])
    (hp : P s) : P (step2dir s q) := by
  unfold step2dir
  by_cases hex : pexists s.src q
  · rw [if_pos hex]
    exact hp
  · rw [if_neg hex]
    exact hP s q _ hq (by simpa using hex) hp

theorem step2files_pres {P : PassState → Prop} (hP : Stable2 P)
    {s : PassState} {p : List String} {fs : List String}
    (hp : P s) : P (step2files s p fs) := by
  induction fs generalizing s with
  | nil => exact hp
  | cons f fs ih =>
    rw [step2files]
    exact ih (step2file_pres hP (by simp) hp)

theorem step2dirs_pres {P : PassState → Prop} (hP : Stable2 P)
    {s : PassState} {p : List String} {ds : List String}
    (hp : P s) : P (step2dirs s p ds) := by
  induction ds generalizing s with
  | nil => exact hp
  | cons d ds ih =>
    rw [step2dirs]
    exact ih (step2dir_pres hP (by simp) hp)

theorem step2_pres {P : PassState → Prop} (hP : Stable2 P)
    {s : PassState} {t : Triple} (hp : P s) : P (step2 s t) := by
  unfold step2
  exact step2dirs_pres hP (step2files_pres hP hp)

theorem runPhase2_pres {P : PassState → Prop} (hP : Stable2 P)
    {s : PassState} {ts : List Triple} (hp : P s) : P (runPhase2 s ts) := by
  induction ts generalizing s with
  | nil => exact hp
  | cons t ts ih =>
    rw [runPhase2]
    exact ih (step2_pres hP hp)



/-! ### `calc_md5` inversions and stability instances -/

theorem calc_md5_ok_some {t : Fs} {m : Md5}
    (h : calc_md5 t = .ok (some m)) : t = some (.file m true) := by
  match t with
  | none => simp [calc_md5] at h
  | some (.file c true) =>
    unfold calc_md5 at h
    have : some c = some m := Except.ok.injEq .. ▸ h
    cases this
    rfl
  | some (.file c false) => simp [calc_md5] at h
  | some (.dir cs) => simp [calc_md5] at h

theorem calc_md5_ok_none {t : Fs} (h : calc_md5 t = .ok none) : t = none := by
  match t with
  | none => rfl
  | some (.file c true) => simp [calc_md5] at h
  | some (.file c false) => simp [calc_md5] at h
  | some (.dir cs) => simp [calc_md5] at h

theorem calc_md5_file_readable {c : List Nat} {r : Bool} {sm : Option Md5}
    (h : calc_md5 (some (.file c r)) = .ok sm) : r = true ∧ sm = some c := by
  cases r with
  | true =>
    unfold calc_md5 at h
    have : some c = sm := Except.ok.injEq .. ▸ h
    exact ⟨rfl, this.symm⟩
  | false => simp [calc_md5] at h

/-- The joint source/destination file-agreement predicate: the path resolves
to a file in the source, and to a byte-identical readable file in the
destination. -/
def FileAgrees (q : List String) (c : List Nat) (r : Bool)
    (s : PassState) : Prop :=
  olookup s.src q = some (.file c r) ∧ olookup s.dst q = some (.file c true)

theorem stable1_fileAgrees (q : List String) (c : List Nat) (r : Bool) :
    Stable1 (FileAgrees q c r) := by
  rintro s d' evs hupd ⟨hsrc, hdst⟩
  refine ⟨hsrc, ?_⟩
  rcases hupd with ⟨q', hm⟩ | ⟨q', c', hol, hw⟩
  · exact mkdirs_ok_file_frame hm hdst
  · by_cases hqq : q = q'
    · subst hqq
      rw [hol] at hsrc
      have hcc : c' = c := by
        have := (Option.some.injEq .. ▸ hsrc)
        cases this
        rfl
      subst hcc
      exact writeAt_ok_self hw
    · exact writeAt_ok_file_frame hw (fun hh => hqq hh) hdst

theorem stable2_fileAgrees (q : List String) (c : List Nat) (r : Bool) :
    Stable2 (FileAgrees q c r) := by
  rintro s t evs ht hex ⟨hsrc, hdst⟩
  refine ⟨hsrc, ?_⟩
  refine removeAt_file_frame ?_ hdst
  intro hst
  have : (olookup s.src t).isSome := isSome_of_starts hst (by simp [hsrc])
  rw [pexists] at hex
  simp [hex] at this

/-- Joint presence: the path exists under both source and destination. -/
def BothPresent (q : List String) (s : PassState) : Prop :=
  (olookup s.src q).isSome ∧ (olookup s.dst q).isSome

theorem stable1_bothPresent (q : List String) : Stable1 (BothPresent q) := by
  rintro s d' evs hupd ⟨hsrc, hdst⟩
  refine ⟨hsrc, ?_⟩
  rcases hupd with ⟨q', hm⟩ | ⟨q', c', hol, hw⟩
  · exact mkdirs_ok_isSome hm hdst
  · exact writeAt_ok_isSome hw hdst

theorem stable2_bothPresent (q : List String) : Stable2 (BothPresent q) := by
  rintro s t evs ht hex ⟨hsrc, hdst⟩
  refine ⟨hsrc, ?_⟩
  refine removeAt_isSome_frame ?_ hdst
  intro hst
  have : (olookup s.src t).isSome := isSome_of_starts hst hsrc
  rw [pexists] at hex
  simp [hex] at this

/-- The destination root is a directory. -/
def RootDir (s : PassState) : Prop := ∃ x, olookup s.dst [] = some (.dir x)

theorem stable1_rootDir : Stable1 RootDir := by
  rintro s d' evs hupd ⟨x, hx⟩
  rcases hupd with ⟨q', hm⟩ | ⟨q', c', hol, hw⟩
  · exact mkdirs_ok_dir_shape hm hx
  · exact writeAt_ok_dir_shape hw hx

theorem removeAt_root_dir (cs : Entries) (t : List String) :
    ∃ cs', removeAt (some (.dir cs)) t = some (.dir cs') := by
  match t with
  | [] => exact ⟨cs, by simp⟩
  | [k] => exact ⟨removeChild cs k, rfl⟩
  | k :: k2 :: ks =>
    cases hl : lookupChild cs k with
    | none => exact ⟨cs, by simp [removeAt, hl]⟩
    | some child =>
      cases hr : removeAt (some child) (k2 :: ks) with
      | none => exact ⟨cs, by simp [removeAt, hl, hr]⟩
      | some child' => exact ⟨setChild cs k child', by simp [removeAt, hl, hr]⟩

theorem stable2_rootDir : Stable2 RootDir := by
  rintro s t evs ht hex ⟨x, hx⟩
  rw [olookup_nil] at hx
  obtain ⟨cs', hcs'⟩ := removeAt_root_dir x t
  refine ⟨cs', ?_⟩
  show olookup (removeAt s.dst t) [] = some (Node.dir cs')
  rw [olookup_nil, hx, hcs']

/-- The destination stays well-formed. -/
def DstWf (s : PassState) : Prop := OWf s.dst

theorem stable1_dstWf : Stable1 DstWf := by
  rintro s d' evs hupd hw
  rcases hupd with ⟨q', hm⟩ | ⟨q', c', hol, hww⟩
  · exact mkdirs_ok_wf hm hw
  · exact writeAt_ok_wf hww hw

theorem stable2_dstWf : Stable2 DstWf := by
  rintro s t evs ht hex hw
  exact removeAt_wf hw

/-- A destination path, once gone, stays gone through phase 2. -/
def DstGone (q : List String) (s : PassState) : Prop :=
  OWf s.dst ∧ olookup s.dst q = none

theorem stable2_dstGone (q : List String) : Stable2 (DstGone q) := by
  rintro s t evs ht hex ⟨hw, hq⟩
  refine ⟨removeAt_wf hw, ?_⟩
  cases hq' : olookup (removeAt s.dst t) q with
  | none => rfl
  | some v =>
    have : (olookup s.dst q).isSome := removeAt_mono_isSome hw (by rw [hq']; rfl)
    rw [hq] at this
    simp at this

theorem stable1_and {P Q : PassState → Prop} (hP : Stable1 P)
    (hQ : Stable1 Q) : Stable1 (fun s => P s ∧ Q s) := by
  rintro s d' evs hupd ⟨hp, hq⟩
  exact ⟨hP s d' evs hupd hp, hQ s d' evs hupd hq⟩

theorem stable2_and {P Q : PassState → Prop} (hP : Stable2 P)
    (hQ : Stable2 Q) : Stable2 (fun s => P s ∧ Q s) := by
  rintro s t evs ht hex ⟨hp, hq⟩
  exact ⟨hP s t evs ht hex hp, hQ s t evs ht hex hq⟩



/-! ### Phase 1 establishes every source file in the destination -/

theorem step1file_ok_self {s s' : PassState} {p : List String} {f : String}
    {c : List Nat} {r : Bool}
    (h : step1file s p f = (s', none))
    (hsrc : olookup s.src (p ++ [f]) = some (.file c r)) :
    olookup s'.dst (p ++ [f]) = some (.file c true) := by
  rcases step1file_ok_cases h with ⟨sm, hsm, hdm, hseq⟩ |
    ⟨c', dm, d', hol, hdm, hne, hw, hseq⟩
  · rw [hseq]
    rw [hsrc] at hsm
    obtain ⟨hr, hsmv⟩ := calc_md5_file_readable hsm
    subst hsmv
    by_cases hex : pexists s.dst (p ++ [f])
    · rw [if_pos hex] at hdm
      exact calc_md5_ok_some hdm
    · rw [if_neg hex] at hdm
      exact absurd (Except.ok.injEq .. ▸ hdm) (by simp)
  · rw [hseq]
    have hcc : c' = c := by
      rw [hol] at hsrc
      have := Option.some.injEq .. ▸ hsrc
      cases this
      rfl
    subst hcc
    exact writeAt_ok_self hw

theorem step1files_ok_estab {s s' : PassState} {p : List String}
    {fs : List String} {f : String} {c : List Nat} {r : Bool}
    (h : step1files s p fs = (s', none)) (hf : f ∈ fs)
    (hsrc : olookup s.src (p ++ [f]) = some (.file c r)) :
    olookup s'.dst (p ++ [f]) = some (.file c true) := by
  induction fs generalizing s with
  | nil => simp at hf
  | cons g fs ih =>
    rw [step1files] at h
    cases hq : step1file s p g with
    | mk s1 e =>
      rw [hq] at h
      cases e with
      | some e => simp at h
      | none =>
        have hs1 : s1.src = s.src := by
          have := step1file_src s p g
          rwa [hq] at this
        by_cases hgf : g = f
        · subst hgf
          have hest : olookup s1.dst (p ++ [g]) = some (.file c true) :=
            step1file_ok_self hq hsrc
          have : FileAgrees (p ++ [g]) c r s' :=
            step1files_ok_pres (stable1_fileAgrees _ _ _) h
              ⟨by rw [hs1]; exact hsrc, hest⟩
          exact this.2
        · rcases List.mem_cons.1 hf with hgf2 | hf2
          · exact absurd hgf2.symm hgf
          · exact ih h hf2 (by rw [hs1]; exact hsrc)

theorem step1_ok_estab {s s' : PassState} {t : Triple} {f : String}
    {c : List Nat} {r : Bool}
    (h : step1 s t = (s', none)) (hf : f ∈ t.2.2)
    (hsrc : olookup s.src (t.1 ++ [f]) = some (.file c r)) :
    olookup s'.dst (t.1 ++ [f]) = some (.file c true) := by
  obtain ⟨s1, s2, h1, h2, h3⟩ := step1_ok_decomp h
  have hs1 : s1.src = s.src := by
    have := ensureRoot_src s t.1
    rwa [h1] at this
  have hs2 : s2.src = s1.src := by
    have := step1dirs_src s1 t.1 t.2.1
    rwa [h2] at this
  exact step1files_ok_estab h3 hf (by rw [hs2, hs1]; exact hsrc)

theorem runPhase1_ok_estab {s s' : PassState} {ts : List Triple}
    {p : List String} {ds fs : List String} {f : String} {c : List Nat}
    {r : Bool}
    (h : runPhase1 s ts = (s', none)) (ht : (p, ds, fs) ∈ ts) (hf : f ∈ fs)
    (hsrc : olookup s.src (p ++ [f]) = some (.file c r)) :
    olookup s'.dst (p ++ [f]) = some (.file c true) := by
  induction ts generalizing s with
  | nil => simp at ht
  | cons t ts ih =>
    rw [runPhase1] at h
    cases hq : step1 s t with
    | mk s1 e =>
      rw [hq] at h
      cases e with
      | some e => simp at h
      | none =>
        have hs1 : s1.src = s.src := by
          have := step1_src s t
          rwa [hq] at this
        rcases List.mem_cons.1 ht with ht2 | ht2
        · subst ht2
          have hest : olookup s1.dst (p ++ [f]) = some (.file c true) :=
            step1_ok_estab hq hf hsrc
          have : FileAgrees (p ++ [f]) c r s' :=
            runPhase1_ok_pres (stable1_fileAgrees _ _ _) h
              ⟨by rw [hs1]; exact hsrc, hest⟩
          exact this.2
        · exact ih h ht2 (by rw [hs1]; exact hsrc)

/-- Every file name a successfully processed triple carries has a
successfully computed source fingerprint. -/
theorem step1files_ok_calc {s s' : PassState} {p : List String}
    {fs : List String} {f : String}
    (h : step1files s p fs = (s', none)) (hf : f ∈ fs) :
    ∃ sm, calc_md5 (olookup s.src (p ++ [f])) = .ok sm := by
  induction fs generalizing s with
  | nil => simp at hf
  | cons g fs ih =>
    rw [step1files] at h
    cases hq : step1file s p g with
    | mk s1 e =>
      rw [hq] at h
      cases e with
      | some e => simp at h
      | none =>
        have hs1 : s1.src = s.src := by
          have := step1file_src s p g
          rwa [hq] at this
        by_cases hgf : g = f
        · subst hgf
          rcases step1file_ok_cases hq with ⟨sm, hsm, _, _⟩ |
            ⟨c, dm, d', hol, _, _, _, _⟩
          · exact ⟨sm, hsm⟩
          · exact ⟨some c, by rw [hol]; rfl⟩
        · rcases List.mem_cons.1 hf with hgf2 | hf2
          · exact absurd hgf2.symm hgf
          · have := ih h hf2
            rwa [hs1] at this

theorem runPhase1_ok_calc {s s' : PassState} {ts : List Triple}
    {p : List String} {ds fs : List String} {f : String}
    (h : runPhase1 s ts = (s', none)) (ht : (p, ds, fs) ∈ ts) (hf : f ∈ fs) :
    ∃ sm, calc_md5 (olookup s.src (p ++ [f])) = .ok sm := by
  induction ts generalizing s with
  | nil => simp at ht
  | cons t ts ih =>
    rw [runPhase1] at h
    cases hq : step1 s t with
    | mk s1 e =>
      rw [hq] at h
      cases e with
      | some e => simp at h
      | none =>
        have hs1 : s1.src = s.src := by
          have := step1_src s t
          rwa [hq] at this
        rcases List.mem_cons.1 ht with ht2 | ht2
        · subst ht2
          obtain ⟨s1', s2, h1, h2, h3⟩ := step1_ok_decomp hq
          have ha : s1'.src = s.src := by
            have := ensureRoot_src s p
            rwa [h1] at this
          have hb : s2.src = s1'.src := by
            have := step1dirs_src s1' p ds
            rwa [h2] at this
          have := step1files_ok_calc h3 hf
          rwa [hb, ha] at this
        · have := ih h ht2
          rwa [hs1] at this



/-! ### Phase 2 removes every destination path absent from source -/

theorem step2file_gone {s : PassState} {q : List String} (hw : OWf s.dst)
    (hq : q ≠ []) (hex : pexists s.src q = false) :
    DstGone q (step2file s q) := by
  unfold step2file
  rw [if_neg (by simp [hex])]
  exact ⟨removeAt_wf hw, removeAt_self_none hw hq⟩

theorem step2dir_gone {s : PassState} {q : List String} (hw : OWf s.dst)
    (hq : q ≠ []) (hex : pexists s.src q = false) :
    DstGone q (step2dir s q) := by
  unfold step2dir
  rw [if_neg (by simp [hex])]
  exact ⟨removeAt_wf hw, removeAt_self_none hw hq⟩

theorem step2files_gone {s : PassState} {p : List String} {fs : List String}
    {x : String} (hx : x ∈ fs) (hw : OWf s.dst)
    (hex : pexists s.src (p ++ [x]) = false) :
    DstGone (p ++ [x]) (step2files s p fs) := by
  induction fs generalizing s with
  | nil => simp at hx
  | cons g fs ih =>
    rw [step2files]
    by_cases hgx : g = x
    · subst hgx
      exact step2files_pres (stable2_dstGone _)
        (step2file_gone hw (by simp) hex)
    · rcases List.mem_cons.1 hx with hx2 | hx2
      · exact absurd hx2.symm hgx
      · refine ih hx2 ?_ ?_
        · exact step2file_pres stable2_dstWf (by simp) hw
        · rw [step2file_src]
          exact hex

theorem step2dirs_gone {s : PassState} {p : List String} {ds : List String}
    {x : String} (hx : x ∈ ds) (hw : OWf s.dst)
    (hex : pexists s.src (p ++ [x]) = false) :
    DstGone (p ++ [x]) (step2dirs s p ds) := by
  induction ds generalizing s with
  | nil => simp at hx
  | cons g ds ih =>
    rw [step2dirs]
    by_cases hgx : g = x
    · subst hgx
      exact step2dirs_pres (stable2_dstGone _)
        (step2dir_gone hw (by simp) hex)
    · rcases List.mem_cons.1 hx with hx2 | hx2
      · exact absurd hx2.symm hgx
      · refine ih hx2 ?_ ?_
        · exact step2dir_pres stable2_dstWf (by simp) hw
        · rw [step2dir_src]
          exact hex

theorem step2_gone {s : PassState} {t : Triple} {x : String}
    (hx : x ∈ t.2.2 ∨ x ∈ t.2.1) (hw : OWf s.dst)
    (hex : pexists s.src (t.1 ++ [x]) = false) :
    DstGone (t.1 ++ [x]) (step2 s t) := by
  unfold step2
  rcases hx with hx | hx
  · exact step2dirs_pres (stable2_dstGone _) (step2files_gone hx hw hex)
  · refine step2dirs_gone hx ?_ ?_
    · exact step2files_pres stable2_dstWf hw
    · rw [step2files_src]
      exact hex

theorem runPhase2_gone {s : PassState} {ts : List Triple} {p : List String}
    {ds fs : List String} {x : String}
    (ht : (p, ds, fs) ∈ ts) (hx : x ∈ fs ∨ x ∈ ds)
    (hw : OWf s.dst) (hex : pexists s.src (p ++ [x]) = false) :
    olookup (runPhase2 s ts).dst (p ++ [x]) = none := by
  induction ts generalizing s with
  | nil => simp at ht
  | cons t ts ih =>
    rw [runPhase2]
    rcases List.mem_cons.1 ht with ht2 | ht2
    · subst ht2
      exact (runPhase2_pres (stable2_dstGone _) (step2_gone hx hw hex)).2
    · refine ih ht2 ?_ ?_
      · exact step2_pres stable2_dstWf hw
      · rw [step2_src]
        exact hex

/-- After phase 2, every surviving destination entry exists under source. -/
theorem runPhase2_survivor_src {s : PassState} {rootn : Node}
    (hroot : s.dst = some rootn) (hw : OWf s.dst)
    {q : List String} {x : String}
    (hsur : (olookup (runPhase2 s (oWalkBottom s.dst)).dst (q ++ [x])).isSome) :
    pexists s.src (q ++ [x]) = true := by
  by_cases hex : pexists s.src (q ++ [x])
  · exact hex
  · exfalso
    have hexf : pexists s.src (q ++ [x]) = false := by simpa using hex
    have hpres : (olookup s.dst (q ++ [x])).isSome := by
      refine runPhase2_pres (P := fun s0 => OWf s0.dst ∧
        ((olookup s0.dst (q ++ [x])).isSome → (olookup s.dst (q ++ [x])).isSome))
        ?_ ⟨hw, fun hh => hh⟩ |>.2 hsur
      rintro s0 t0 evs ht0 hex0 ⟨hw0, himp⟩
      refine ⟨removeAt_wf hw0, fun hh => himp (removeAt_mono_isSome hw0 hh)⟩
    cases hv : olookup s.dst (q ++ [x]) with
    | none => rw [hv] at hpres; simp at hpres
    | some v =>
      obtain ⟨cs, hq, hlx⟩ := olookup_parent hv
      have hq' : olookup (some rootn) q = some (.dir cs) := by
        rw [← hroot]
        exact hq
      have htrip : (q, dirNames cs, fileNames cs) ∈ walkBottom rootn [] := by
        have := @mem_walkBottom_of_dir q rootn [] cs hq'
        simpa using this
      have hts : (q, dirNames cs, fileNames cs) ∈ oWalkBottom s.dst := by
        rw [hroot]
        exact htrip
      have hxnames : x ∈ fileNames cs ∨ x ∈ dirNames cs := by
        cases v with
        | file c b => exact Or.inl (mem_fileNames_of_lookup hlx)
        | dir y => exact Or.inr (mem_dirNames_of_lookup hlx)
      have := runPhase2_gone hts hxnames hw hexf
      rw [this] at hsur
      simp at hsur



/-! ### Assembling a full pass -/

theorem destDirExists_nil_iff {t : Fs} :
    destDirExists t [] = true ↔ ∃ cs, t = some (.dir cs) := by
  cases t with
  | none => simp [destDirExists]
  | some n =>
    cases n with
    | file c b => simp [destDirExists]
    | dir cs => simp [destDirExists]

theorem ensureRoot_ok_root_dir {s s' : PassState}
    (h : ensureRoot s [] = (s', none)) : RootDir s' := by
  rcases ensureRoot_ok_cases h with ⟨hex, hseq⟩ | ⟨hex, d', hm, hseq⟩
  · rw [hseq]
    obtain ⟨cs, hcs⟩ := destDirExists_nil_iff.1 hex
    exact ⟨cs, by rw [olookup_nil, hcs]⟩
  · obtain ⟨cs, hcs⟩ := mkdirs_ok_target hm
    rw [hseq]
    exact ⟨cs, hcs⟩

theorem runPhase1_ok_root_dir {s s' : PassState} {ds fs : List String}
    {ts : List Triple}
    (h : runPhase1 s (([], ds, fs) :: ts) = (s', none)) : RootDir s' := by
  rw [runPhase1] at h
  cases hq : step1 s ([], ds, fs) with
  | mk s1 e =>
    rw [hq] at h
    cases e with
    | some e => simp at h
    | none =>
      obtain ⟨sa, sb, h1, h2, h3⟩ := step1_ok_decomp hq
      have hra : RootDir sa := ensureRoot_ok_root_dir h1
      have hrb : RootDir sb := step1dirs_ok_pres stable1_rootDir h2 hra
      have hr1 : RootDir s1 := step1files_ok_pres stable1_rootDir h3 hrb
      exact runPhase1_ok_pres stable1_rootDir h hr1

theorem sync_ok_decomp {src dst : Fs} {s' : PassState}
    (h : sync src dst = (s', none)) :
    ∃ s1, runPhase1 ⟨src, dst, []⟩ (oWalkPre src) = (s1, none) ∧
      s' = runPhase2 s1 (oWalkBottom s1.dst) := by
  unfold sync at h
  cases h1 : runPhase1 ⟨src, dst, []⟩ (oWalkPre src) with
  | mk s1 e1 =>
    rw [h1] at h
    cases e1 with
    | some e => simp at h
    | none =>
      dsimp only at h
      injection h with ha hb
      exact ⟨s1, rfl, ha.symm⟩

/-- The heart of the convergence analysis: a pass that completes without an
exception leaves (a) every source file byte-identical at its destination
path, and (b) no destination entry whose path has no source entry. -/
theorem sync_ok_main {scs : Entries} {dst : Fs} {s' : PassState}
    (hw : OWf dst)
    (h : sync (some (.dir scs)) dst = (s', none)) :
    (∀ q c r, olookup (some (.dir scs)) q = some (.file c r) →
       olookup s'.dst q = some (.file c true)) ∧
    (∀ q, (olookup s'.dst q).isSome →
       (olookup (some (.dir scs)) q).isSome) ∧
    RootDir s' ∧ OWf s'.dst := by
  obtain ⟨s1, h1, hs'⟩ := sync_ok_decomp h
  have hsrc1 : s1.src = some (.dir scs) := by
    have := runPhase1_src ⟨some (.dir scs), dst, []⟩ (oWalkPre (some (.dir scs)))
    rwa [h1] at this
  have hwf1 : OWf s1.dst :=
    runPhase1_ok_pres stable1_dstWf h1 hw
  have hroot1 : RootDir s1 := by
    have hwalk : oWalkPre (some (.dir scs)) =
        ([], dirNames scs, fileNames scs) :: walkPreChildren scs [] := by
      rw [oWalkPre, walkPre]
    rw [hwalk] at h1
    exact runPhase1_ok_root_dir h1
  obtain ⟨rx, hrx⟩ := hroot1
  rw [olookup_nil] at hrx
  constructor
  · intro q c r hq
    by_cases hqnil : q = []
    · rw [hqnil] at hq
      simp at hq
    · obtain ⟨q0, x, rfl⟩ := (List.eq_nil_or_concat q).resolve_left hqnil
      rw [List.concat_eq_append] at hq ⊢
      obtain ⟨cs, hpar, hlx⟩ := olookup_parent hq
      have htrip : (q0, dirNames cs, fileNames cs) ∈
          walkPre (.dir scs) [] := by
        have := @mem_walkPre_of_dir q0 (Node.dir scs) [] cs hpar
        simpa using this
      have hts : (q0, dirNames cs, fileNames cs) ∈
          oWalkPre (some (Node.dir scs)) := by
        rw [oWalkPre]
        exact htrip
      have hest : olookup s1.dst (q0 ++ [x]) = some (.file c true) :=
        runPhase1_ok_estab h1 hts (mem_fileNames_of_lookup hlx) hq
      have hfin : FileAgrees (q0 ++ [x]) c r s' := by
        rw [hs']
        refine runPhase2_pres (stable2_fileAgrees _ _ _) ?_
        exact ⟨by rw [hsrc1]; exact hq, hest⟩
      exact hfin.2
  refine ⟨?_, ?_, ?_⟩
  · intro q hsur
    by_cases hqnil : q = []
    · rw [hqnil]
      simp
    · obtain ⟨q0, x, rfl⟩ := (List.eq_nil_or_concat q).resolve_left hqnil
      rw [List.concat_eq_append] at hsur ⊢
      rw [hs'] at hsur
      have := runPhase2_survivor_src hrx hwf1 hsur
      rw [pexists, hsrc1] at this
      simpa using this
  · rw [hs']
    exact runPhase2_pres stable2_rootDir ⟨rx, by rw [olookup_nil, hrx]⟩
  · rw [hs']
    exact runPhase2_pres stable2_dstWf hwf1



/-! ### Error propagation through phase 1 -/

theorem stable1_srcEq (SRC : Fs) : Stable1 (fun s => s.src = SRC) := by
  rintro s d' evs hupd hs
  exact hs

/-- A directory sits at the given destination path. -/
def DirAt (q : List String) (s : PassState) : Prop :=
  ∃ x, olookup s.dst q = some (.dir x)

theorem stable1_dirAt (q : List String) : Stable1 (DirAt q) := by
  rintro s d' evs hupd ⟨x, hx⟩
  rcases hupd with ⟨q', hm⟩ | ⟨q', c', hol, hw⟩
  · exact mkdirs_ok_dir_shape hm hx
  · exact writeAt_ok_dir_shape hw hx

theorem step1files_err_generic {Inv : PassState → Prop} (hstable : Stable1 Inv)
    {p : List String} {fs : List String} {f : String} (hf : f ∈ fs)
    (herr : ∀ s, Inv s → (step1file s p f).2.isSome) :
    ∀ {s : PassState}, Inv s → (step1files s p fs).2.isSome := by
  induction fs with
  | nil => simp at hf
  | cons g fs ih =>
    intro s hinv
    rw [step1files]
    by_cases hgf : g = f
    · subst hgf
      cases hq : step1file s p g with
      | mk s1 e =>
        cases e with
        | some e => simp
        | none =>
          have := herr s hinv
          rw [hq] at this
          simp at this
    · cases hq : step1file s p g with
      | mk s1 e =>
        cases e with
        | some e => simp
        | none =>
          rcases List.mem_cons.1 hf with h2 | h2
          · exact absurd h2.symm hgf
          · exact ih h2 (step1file_ok_pres hstable hq hinv)

theorem step1_err_generic {Inv : PassState → Prop} (hstable : Stable1 Inv)
    {t : Triple} {f : String} (hf : f ∈ t.2.2)
    (herr : ∀ s, Inv s → (step1file s t.1 f).2.isSome) :
    ∀ {s : PassState}, Inv s → (step1 s t).2.isSome := by
  intro s hinv
  unfold step1
  cases h1 : ensureRoot s t.1 with
  | mk s1 e1 =>
    cases e1 with
    | some e => simp
    | none =>
      dsimp only
      have hi1 : Inv s1 := ensureRoot_ok_pres hstable h1 hinv
      cases h2 : step1dirs s1 t.1 t.2.1 with
      | mk s2 e2 =>
        cases e2 with
        | some e => simp
        | none =>
          dsimp only
          have hi2 : Inv s2 := step1dirs_ok_pres hstable h2 hi1
          exact step1files_err_generic hstable hf herr hi2

theorem runPhase1_err_generic {Inv : PassState → Prop} (hstable : Stable1 Inv)
    {ts : List Triple} {t : Triple} {f : String}
    (ht : t ∈ ts) (hf : f ∈ t.2.2)
    (herr : ∀ s, Inv s → (step1file s t.1 f).2.isSome) :
    ∀ {s : PassState}, Inv s → (runPhase1 s ts).2.isSome := by
  induction ts with
  | nil => simp at ht
  | cons t' ts ih =>
    intro s hinv
    rw [runPhase1]
    rcases List.mem_cons.1 ht with ht2 | ht2
    · subst ht2
      cases hq : step1 s t with
      | mk s1 e =>
        cases e with
        | some e => simp
        | none =>
          have := step1_err_generic hstable hf herr hinv
          rw [hq] at this
          simp at this
    · cases hq : step1 s t' with
      | mk s1 e =>
        cases e with
        | some e => simp
        | none => exact ih ht2 (step1_ok_pres hstable hq hinv)

theorem sync_err_generic {Inv : PassState → Prop} (hstable : Stable1 Inv)
    {src dst : Fs} {t : Triple} {f : String}
    (ht : t ∈ oWalkPre src) (hf : f ∈ t.2.2)
    (herr : ∀ s, Inv s → (step1file s t.1 f).2.isSome)
    (h0 : Inv ⟨src, dst, []⟩) : (sync src dst).2.isSome := by
  unfold sync
  cases h1 : runPhase1 ⟨src, dst, []⟩ (oWalkPre src) with
  | mk s1 e1 =>
    cases e1 with
    | some e => simp
    | none =>
      have := runPhase1_err_generic hstable ht hf herr h0
      rw [h1] at this
      simp at this

/-- A nonempty path that resolves under a root forces the root to be a
directory. -/
theorem root_dir_of_lookup {src : Fs} {q : List String} {v : Node}
    (hq : q ≠ []) (h : olookup src q = some v) :
    ∃ scs, src = some (.dir scs) := by
  match src, q with
  | none, _ => simp at h
  | some (.file c b), k :: ks => simp at h
  | some (.dir scs), k :: ks => exact ⟨scs, rfl⟩
  | some n, [] => exact absurd rfl hq



/-- An unreadable source file makes the whole pass raise: `calc_md5` only
catches `FileNotFoundError`, so the `PermissionError` escapes `sync`. -/
theorem sync_err_of_unreadable {src dst : Fs} {p : List String} {f : String}
    {c : List Nat}
    (hq : olookup src (p ++ [f]) = some (.file c false)) :
    (sync src dst).2.isSome := by
  obtain ⟨scs, rfl⟩ := root_dir_of_lookup (by simp) hq
  obtain ⟨cs, hpar, hlx⟩ := olookup_parent hq
  have htrip : (p, dirNames cs, fileNames cs) ∈
      oWalkPre (some (.dir scs)) := by
    rw [oWalkPre]
    have := @mem_walkPre_of_dir p (Node.dir scs) [] cs hpar
    simpa using this
  refine sync_err_generic (stable1_srcEq (some (.dir scs))) htrip
    (mem_fileNames_of_lookup hlx) ?_ rfl
  intro s hs
  unfold step1file
  rw [hs, hq]
  simp [calc_md5]

/-- A source file over an existing destination directory makes the pass
raise: fingerprinting the destination path hits `IsADirectoryError`. -/
theorem sync_err_of_conflict {src dst : Fs} {p : List String} {f : String}
    {c : List Nat} {x : Entries}
    (hqs : olookup src (p ++ [f]) = some (.file c true))
    (hqd : olookup dst (p ++ [f]) = some (.dir x)) :
    (sync src dst).2.isSome := by
  obtain ⟨scs, rfl⟩ := root_dir_of_lookup (by simp) hqs
  obtain ⟨cs, hpar, hlx⟩ := olookup_parent hqs
  have htrip : (p, dirNames cs, fileNames cs) ∈
      oWalkPre (some (.dir scs)) := by
    rw [oWalkPre]
    have := @mem_walkPre_of_dir p (Node.dir scs) [] cs hpar
    simpa using this
  refine sync_err_generic
    (stable1_and (stable1_srcEq (some (.dir scs))) (stable1_dirAt (p ++ [f])))
    htrip (mem_fileNames_of_lookup hlx) ?_ ⟨rfl, x, hqd⟩
  rintro s ⟨hs, x', hx'⟩
  unfold step1file
  rw [hs, hqs]
  have hex : pexists s.dst (p ++ [f]) = true := by
    rw [pexists, hx']
    rfl
  rw [hex, hx']
  simp [calc_md5]



/-! ### Steps that find nothing to do change nothing -/

theorem ensureRoot_id {s : PassState} {p : List String}
    (hex : destDirExists s.dst p = true) : ensureRoot s p = (s, none) := by
  unfold ensureRoot
  rw [if_pos hex]

theorem step1dir_id {s : PassState} {q : List String}
    (hex : pexists s.dst q = true) : step1dir s q = (s, none) := by
  unfold step1dir
  rw [if_pos hex]

theorem step1file_id {s : PassState} {p : List String} {f : String}
    {sm : Option Md5}
    (hsm : calc_md5 (olookup s.src (p ++ [f])) = .ok sm)
    (hdm : (if pexists s.dst (p ++ [f]) then calc_md5 (olookup s.dst (p ++ [f]))
            else .ok none) = .ok sm) :
    step1file s p f = (s, none) := by
  unfold step1file
  rw [hsm]
  dsimp only
  rw [hdm]
  dsimp only
  rw [if_neg (by simp)]

theorem step1dirs_id {s : PassState} {p : List String} {ds : List String}
    (h : ∀ d ∈ ds, pexists s.dst (p ++ [d]) = true) :
    step1dirs s p ds = (s, none) := by
  induction ds with
  | nil => rfl
  | cons d ds ih =>
    rw [step1dirs, step1dir_id (h d (by simp))]
    exact ih (fun d' hd' => h d' (List.mem_cons_of_mem _ hd'))

theorem step1files_id {s : PassState} {p : List String} {fs : List String}
    (h : ∀ f ∈ fs, ∃ sm, calc_md5 (olookup s.src (p ++ [f])) = .ok sm ∧
      (if pexists s.dst (p ++ [f]) then calc_md5 (olookup s.dst (p ++ [f]))
       else .ok none) = .ok sm) :
    step1files s p fs = (s, none) := by
  induction fs with
  | nil => rfl
  | cons f fs ih =>
    obtain ⟨sm, hsm, hdm⟩ := h f (by simp)
    rw [step1files, step1file_id hsm hdm]
    exact ih (fun f' hf' => h f' (List.mem_cons_of_mem _ hf'))

theorem step1_id {s : PassState} {t : Triple}
    (h1 : ensureRoot s t.1 = (s, none))
    (h2 : step1dirs s t.1 t.2.1 = (s, none))
    (h3 : step1files s t.1 t.2.2 = (s, none)) :
    step1 s t = (s, none) := by
  unfold step1
  rw [h1]
  dsimp only
  rw [h2]
  dsimp only
  exact h3

theorem runPhase1_id {s : PassState} {ts : List Triple}
    (h : ∀ t ∈ ts, step1 s t = (s, none)) : runPhase1 s ts = (s, none) := by
  induction ts with
  | nil => rfl
  | cons t ts ih =>
    rw [runPhase1, h t (by simp)]
    exact ih (fun t' ht' => h t' (List.mem_cons_of_mem _ ht'))

theorem step2file_id {s : PassState} {q : List String}
    (hex : pexists s.src q = true) : step2file s q = s := by
  unfold step2file
  rw [if_pos hex]

theorem step2dir_id {s : PassState} {q : List String}
    (hex : pexists s.src q = true) : step2dir s q = s := by
  unfold step2dir
  rw [if_pos hex]

theorem step2files_id {s : PassState} {p : List String} {fs : List String}
    (h : ∀ f ∈ fs, pexists s.src (p ++ [f]) = true) :
    step2files s p fs = s := by
  induction fs with
  | nil => rfl
  | cons f fs ih =>
    rw [step2files, step2file_id (h f (by simp))]
    exact ih (fun f' hf' => h f' (List.mem_cons_of_mem _ hf'))

theorem step2dirs_id {s : PassState} {p : List String} {ds : List String}
    (h : ∀ d ∈ ds, pexists s.src (p ++ [d]) = true) :
    step2dirs s p ds = s := by
  induction ds with
  | nil => rfl
  | cons d ds ih =>
    rw [step2dirs, step2dir_id (h d (by simp))]
    exact ih (fun d' hd' => h d' (List.mem_cons_of_mem _ hd'))

theorem step2_id {s : PassState} {t : Triple}
    (hfs : ∀ f ∈ t.2.2, pexists s.src (t.1 ++ [f]) = true)
    (hds : ∀ d ∈ t.2.1, pexists s.src (t.1 ++ [d]) = true) :
    step2 s t = s := by
  unfold step2
  rw [step2files_id hfs, step2dirs_id hds]

theorem runPhase2_id {s : PassState} {ts : List Triple}
    (h : ∀ t ∈ ts, step2 s t = s) : runPhase2 s ts = s := by
  induction ts with
  | nil => rfl
  | cons t ts ih =>
    rw [runPhase2, h t (by simp)]
    exact ih (fun t' ht' => h t' (List.mem_cons_of_mem _ ht'))

/-! ### Phase 1 leaves every walked source directory present in the
destination -/

theorem ensureRoot_ok_present {s s' : PassState} {q : List String}
    (h : ensureRoot s q = (s', none)) : (olookup s'.dst q).isSome := by
  rcases ensureRoot_ok_cases h with ⟨hex, hseq⟩ | ⟨hex, d', hm, hseq⟩
  · rw [hseq]
    match q with
    | [] =>
      obtain ⟨cs, hcs⟩ := destDirExists_nil_iff.1 hex
      rw [olookup_nil, hcs]
      rfl
    | k :: ks =>
      unfold destDirExists pexists at hex
      exact hex
  · obtain ⟨cs, hcs⟩ := mkdirs_ok_target hm
    rw [hseq]
    rw [hcs]
    rfl

/-- The destination path of a walked triple exists. -/
def DstSome (q : List String) (s : PassState) : Prop :=
  (olookup s.dst q).isSome

theorem stable1_dstSome (q : List String) : Stable1 (DstSome q) := by
  rintro s d' evs hupd hq
  rcases hupd with ⟨q', hm⟩ | ⟨q', c', hol, hw⟩
  · exact mkdirs_ok_isSome hm hq
  · exact writeAt_ok_isSome hw hq

theorem runPhase1_ok_dir_present {s s' : PassState} {ts : List Triple}
    {q : List String} {ds fs : List String}
    (h : runPhase1 s ts = (s', none)) (ht : (q, ds, fs) ∈ ts) :
    (olookup s'.dst q).isSome := by
  induction ts generalizing s with
  | nil => simp at ht
  | cons t ts ih =>
    rw [runPhase1] at h
    cases hq : step1 s t with
    | mk s1 e =>
      rw [hq] at h
      cases e with
      | some e => simp at h
      | none =>
        rcases List.mem_cons.1 ht with ht2 | ht2
        · subst ht2
          obtain ⟨sa, sb, h1, h2, h3⟩ := step1_ok_decomp hq
          have hpa : DstSome q sa := ensureRoot_ok_present h1
          have hpb : DstSome q sb := step1dirs_ok_pres (stable1_dstSome q) h2 hpa
          have hp1 : DstSome q s1 := step1files_ok_pres (stable1_dstSome q) h3 hpb
          exact runPhase1_ok_pres (stable1_dstSome q) h hp1
        · exact ih h ht2



/-! ### Idempotence: a second pass over an unchanged source does nothing -/

theorem sync_idempotent {scs : Entries} {dst : Fs} {s' : PassState}
    (hwsrc : NWf (.dir scs)) (hw : OWf dst)
    (h : sync (some (.dir scs)) dst = (s', none)) :
    sync (some (.dir scs)) s'.dst =
      (⟨some (.dir scs), s'.dst, []⟩, none) := by
  obtain ⟨hA, hB, hroot', hwf'⟩ := sync_ok_main hw h
  obtain ⟨s1, h1, hs'⟩ := sync_ok_decomp h
  have hsrc1 : s1.src = some (.dir scs) := by
    have := runPhase1_src ⟨some (.dir scs), dst, []⟩
      (oWalkPre (some (.dir scs)))
    rwa [h1] at this
  -- every source directory path is still present in the final destination
  have hdirs : ∀ q y, olookup (some (.dir scs)) q = some (.dir y) →
      (olookup s'.dst q).isSome := by
    intro q y hq
    have htrip : (q, dirNames y, fileNames y) ∈
        oWalkPre (some (.dir scs)) := by
      rw [oWalkPre]
      have := @mem_walkPre_of_dir q (Node.dir scs) [] y hq
      simpa using this
    have hpres1 : (olookup s1.dst q).isSome :=
      runPhase1_ok_dir_present h1 htrip
    have hfin : BothPresent q (runPhase2 s1 (oWalkBottom s1.dst)) := by
      refine runPhase2_pres (stable2_bothPresent q) ⟨?_, hpres1⟩
      rw [hsrc1, hq]
      rfl
    rw [hs']
    exact hfin.2
  have hcalc : ∀ p ds fs, (p, ds, fs) ∈ oWalkPre (some (.dir scs)) →
      ∀ f ∈ fs, ∃ sm,
        calc_md5 (olookup (some (.dir scs)) (p ++ [f])) = .ok sm := by
    intro p ds fs ht f hf
    exact runPhase1_ok_calc h1 ht hf
  obtain ⟨rx, hrx0⟩ := hroot'
  rw [olookup_nil] at hrx0
  -- phase 1 of the second pass is a no-op
  have hid1 : ∀ t ∈ oWalkPre (some (.dir scs)),
      step1 ⟨some (.dir scs), s'.dst, []⟩ t =
        (⟨some (.dir scs), s'.dst, []⟩, none) := by
    intro t ht
    obtain ⟨p, ds, fs⟩ := t
    have hts : (p, ds, fs) ∈ walkPre (.dir scs) [] := by
      rw [oWalkPre] at ht
      exact ht
    obtain ⟨p', cs, hpeq, hol, hdseq, hfseq⟩ :=
      walkPre_sound _ hwsrc [] p ds fs hts
    simp only [List.nil_append] at hpeq
    subst hpeq
    subst hdseq
    subst hfseq
    have hndcs : (cs.map Prod.fst).Nodup := by
      have hnw : NWf (.dir cs) :=
        NWf_olookup (t := some (.dir scs)) hwsrc hol
      cases hnw with
      | dir hnd _ => exact hnd
    refine step1_id ?_ ?_ ?_
    · apply ensureRoot_id
      match p, hol with
      | [], hol =>
        exact destDirExists_nil_iff.2 ⟨rx, hrx0⟩
      | k :: ks, hol =>
        show destDirExists s'.dst (k :: ks) = true
        unfold destDirExists pexists
        exact hdirs (k :: ks) cs hol
    · apply step1dirs_id
      intro d hd
      obtain ⟨y, hy⟩ := lookup_of_mem_dirNames hndcs hd
      have hqd : olookup (some (.dir scs)) (p ++ [d]) = some (.dir y) := by
        rw [olookup_append, hol]
        simpa using hy
      unfold pexists
      exact hdirs (p ++ [d]) y hqd
    · apply step1files_id
      intro f hf
      obtain ⟨c, r, hcr⟩ := lookup_of_mem_fileNames hndcs hf
      have hqf : olookup (some (.dir scs)) (p ++ [f]) = some (.file c r) := by
        rw [olookup_append, hol]
        simpa using hcr
      obtain ⟨sm, hsm⟩ := hcalc p (dirNames cs) (fileNames cs) hts f hf
      rw [hqf] at hsm
      obtain ⟨hr, hsmv⟩ := calc_md5_file_readable hsm
      subst hr
      subst hsmv
      have hdstf : olookup s'.dst (p ++ [f]) = some (.file c true) :=
        hA (p ++ [f]) c true hqf
      refine ⟨some c, ?_, ?_⟩
      · show calc_md5 (olookup (some (.dir scs)) (p ++ [f])) = .ok (some c)
        rw [hqf]
        rfl
      · have hex : pexists s'.dst (p ++ [f]) = true := by
          unfold pexists
          rw [hdstf]
          rfl
        show (if pexists s'.dst (p ++ [f]) then
            calc_md5 (olookup s'.dst (p ++ [f]))
            else .ok none) = .ok (some c)
        rw [hex]
        simp only [if_true]
        rw [hdstf]
        rfl
  -- phase 2 of the second pass is a no-op
  have hwrx : NWf (.dir rx) := by
    rw [hrx0] at hwf'
    exact hwf'
  have hid2 : ∀ t ∈ oWalkBottom s'.dst,
      step2 ⟨some (.dir scs), s'.dst, []⟩ t =
        ⟨some (.dir scs), s'.dst, []⟩ := by
    intro t ht
    obtain ⟨p, ds, fs⟩ := t
    have hts : (p, ds, fs) ∈ walkBottom (.dir rx) [] := by
      rw [hrx0] at ht
      exact ht
    obtain ⟨p', cs, hpeq, hol, hdseq, hfseq⟩ :=
      walkBottom_sound _ hwrx [] p ds fs hts
    simp only [List.nil_append] at hpeq
    subst hpeq
    subst hdseq
    subst hfseq
    have hndcs : (cs.map Prod.fst).Nodup := by
      have hnw : NWf (.dir cs) := by
        refine NWf_olookup (t := some (.dir rx)) hwrx hol
      cases hnw with
      | dir hnd _ => exact hnd
    refine step2_id ?_ ?_
    · intro f hf
      obtain ⟨c, b, hcb⟩ := lookup_of_mem_fileNames hndcs hf
      have hpres : (olookup s'.dst (p ++ [f])).isSome := by
        rw [olookup_append, hrx0, hol]
        simp [hcb]
      exact hB (p ++ [f]) hpres
    · intro d hd
      obtain ⟨y, hy⟩ := lookup_of_mem_dirNames hndcs hd
      have hpres : (olookup s'.dst (p ++ [d])).isSome := by
        rw [olookup_append, hrx0, hol]
        simp [hy]
      exact hB (p ++ [d]) hpres
  unfold sync
  have hrun1 : runPhase1 ⟨some (.dir scs), s'.dst, []⟩
      (oWalkPre (some (.dir scs))) = (⟨some (.dir scs), s'.dst, []⟩, none) :=
    runPhase1_id hid1
  rw [hrun1]
  dsimp only
  rw [runPhase2_id hid2]



/-! ### A source with no entries prunes the whole destination -/

/-- The log lines the prune loop emits for one walked triple when nothing
under the path exists in the source: one `Deleted file` per file name, then
one `Deleted directory` per directory name. -/
def pruneEventsOf (t : Triple) : List Event :=
  t.2.2.map (fun f => Event.deletedFile (t.1 ++ [f])) ++
    t.2.1.map (fun d => Event.deletedDir (t.1 ++ [d]))

def pruneAllEvents (ts : List Triple) : List Event :=
  (ts.map pruneEventsOf).join

theorem pruneAllEvents_are_deletes {ts : List Triple} {e : Event}
    (h : e ∈ pruneAllEvents ts) :
    (∃ q, e = .deletedFile q) ∨ (∃ q, e = .deletedDir q) := by
  unfold pruneAllEvents at h
  rw [List.mem_join] at h
  obtain ⟨l, hl, hel⟩ := h
  rw [List.mem_map] at hl
  obtain ⟨t, _, rfl⟩ := hl
  unfold pruneEventsOf at hel
  rcases List.mem_append.1 hel with h2 | h2
  · rw [List.mem_map] at h2
    obtain ⟨f, _, rfl⟩ := h2
    exact Or.inl ⟨_, rfl⟩
  · rw [List.mem_map] at h2
    obtain ⟨d, _, rfl⟩ := h2
    exact Or.inr ⟨_, rfl⟩

theorem pexists_false_of_empty_src {src : Fs}
    (hsrc : ∀ (k : String) (ks : List String), olookup src (k :: ks) = none)
    (p : List String) (x : String) : pexists src (p ++ [x]) = false := by
  unfold pexists
  match p with
  | [] => rw [List.nil_append, hsrc x []]; rfl
  | k :: ks => rw [List.cons_append, hsrc k (ks ++ [x])]; rfl

theorem step2files_prune_events {s : PassState}
    (hsrc : ∀ (k : String) (ks : List String), olookup s.src (k :: ks) = none)
    (p : List String) (fs : List String) :
    (step2files s p fs).events =
      s.events ++ fs.map (fun f => Event.deletedFile (p ++ [f])) := by
  induction fs generalizing s with
  | nil => simp [step2files]
  | cons f fs ih =>
    rw [step2files]
    unfold step2file
    rw [if_neg (by simp [pexists_false_of_empty_src hsrc])]
    rw [ih (by intro k ks; exact hsrc k ks)]
    simp

theorem step2dirs_prune_events {s : PassState}
    (hsrc : ∀ (k : String) (ks : List String), olookup s.src (k :: ks) = none)
    (p : List String) (ds : List String) :
    (step2dirs s p ds).events =
      s.events ++ ds.map (fun d => Event.deletedDir (p ++ [d])) := by
  induction ds generalizing s with
  | nil => simp [step2dirs]
  | cons d ds ih =>
    rw [step2dirs]
    unfold step2dir
    rw [if_neg (by simp [pexists_false_of_empty_src hsrc])]
    rw [ih (by intro k ks; exact hsrc k ks)]
    simp

theorem step2_prune_events {s : PassState}
    (hsrc : ∀ (k : String) (ks : List String), olookup s.src (k :: ks) = none)
    (t : Triple) :
    (step2 s t).events = s.events ++ pruneEventsOf t := by
  unfold step2
  rw [step2dirs_prune_events (by
    intro k ks
    rw [step2files_src]
    exact hsrc k ks)]
  rw [step2files_prune_events hsrc]
  unfold pruneEventsOf
  simp

theorem runPhase2_prune_events {s : PassState} {ts : List Triple}
    (hsrc : ∀ (k : String) (ks : List String), olookup s.src (k :: ks) = none) :
    (runPhase2 s ts).events = s.events ++ pruneAllEvents ts := by
  induction ts generalizing s with
  | nil => simp [runPhase2, pruneAllEvents]
  | cons t ts ih =>
    rw [runPhase2]
    rw [ih (by
      intro k ks
      rw [step2_src]
      exact hsrc k ks)]
    rw [step2_prune_events hsrc]
    unfold pruneAllEvents
    simp

theorem PassState.eq_of {s : PassState} {a b : Fs} {c : List Event}
    (h1 : s.src = a) (h2 : s.dst = b) (h3 : s.events = c) :
    s = ⟨a, b, c⟩ := by
  cases s
  subst h1
  subst h2
  subst h3
  rfl

/-- When `os.walk(source)` yields nothing and no path exists under the
source, a pass deletes everything under the destination root, emitting one
`Deleted file` line per file and one `Deleted directory` line per directory,
and finishes without error. -/
theorem sync_prune_all {src : Fs} {cs : Entries}
    (hwalk : runPhase1 ⟨src, some (.dir cs), []⟩ (oWalkPre src) =
      (⟨src, some (.dir cs), []⟩, none))
    (hsrc : ∀ (k : String) (ks : List String), olookup src (k :: ks) = none)
    (hw : NWf (.dir cs)) :
    sync src (some (.dir cs)) =
      (⟨src, some (.dir []),
        pruneAllEvents (walkBottom (.dir cs) [])⟩, none) := by
  unfold sync
  rw [hwalk]
  dsimp only
  have hts : oWalkBottom (some (Node.dir cs)) = walkBottom (.dir cs) [] := rfl
  rw [hts]
  set s0 : PassState := ⟨src, some (.dir cs), []⟩ with hs0
  set s2 : PassState := runPhase2 s0 (walkBottom (.dir cs) []) with hs2def
  have hsrc2 : s2.src = src := by
    rw [hs2def]
    exact runPhase2_src s0 _
  have hev : s2.events = pruneAllEvents (walkBottom (.dir cs) []) := by
    rw [hs2def]
    have := @runPhase2_prune_events s0 (walkBottom (.dir cs) [])
      (by intro k ks; exact hsrc k ks)
    simpa using this
  have hroot2 : RootDir s2 := by
    rw [hs2def]
    exact runPhase2_pres stable2_rootDir ⟨cs, rfl⟩
  obtain ⟨rcs, hrcs⟩ := hroot2
  rw [olookup_nil] at hrcs
  have hempty : rcs = [] := by
    cases hc : rcs with
    | nil => rfl
    | cons e rest =>
      exfalso
      obtain ⟨k, v⟩ := e
      have hsur : (olookup s2.dst ([] ++ [k])).isSome := by
        rw [List.nil_append, hrcs, hc]
        simp [lookupChild]
      have hP : pexists s0.src ([] ++ [k]) = true := by
        refine runPhase2_survivor_src (s := s0) rfl hw ?_
        have hwb : oWalkBottom s0.dst = walkBottom (.dir cs) [] := rfl
        rw [hwb, ← hs2def]
        exact hsur
      rw [@pexists_false_of_empty_src s0.src hsrc [] k] at hP
      simp at hP
  refine Prod.ext ?_ rfl
  show s2 = _
  refine PassState.eq_of hsrc2 ?_ hev
  rw [hrcs, hempty]



/-! ### The source tree is never modified -/

theorem sync_src (src dst : Fs) : ((sync src dst).1).src = src := by
  unfold sync
  cases h1 : runPhase1 ⟨src, dst, []⟩ (oWalkPre src) with
  | mk s1 e1 =>
    have hs1 : s1.src = src := by
      have := runPhase1_src ⟨src, dst, []⟩ (oWalkPre src)
      rwa [h1] at this
    cases e1 with
    | some e =>
      dsimp only
      exact hs1
    | none =>
      dsimp only
      rw [runPhase2_src]
      exact hs1

/-! ### The per-file copy decision -/

/-- The file body of phase 1, given a computed source fingerprint: no
action exactly when a destination file exists with the same fingerprint;
a `Copied new file` copy when no destination file exists; an
`Updated file` overwrite when the fingerprints differ. -/
theorem step1file_decision {s : PassState} {p : List String} {f : String}
    {c : List Nat}
    (hsrc : calc_md5 (olookup s.src (p ++ [f])) = .ok (some c)) :
    (pexists s.dst (p ++ [f]) = true →
      calc_md5 (olookup s.dst (p ++ [f])) = .ok (some c) →
      step1file s p f = (s, none)) ∧
    (pexists s.dst (p ++ [f]) = false →
      ∀ d', writeAt s.dst (p ++ [f]) c = .ok d' →
        step1file s p f =
          (⟨s.src, d', s.events ++ [.copiedNewFile (p ++ [f])]⟩, none)) ∧
    (∀ dm, pexists s.dst (p ++ [f]) = true →
      calc_md5 (olookup s.dst (p ++ [f])) = .ok (some dm) → dm ≠ c →
      ∀ d', writeAt s.dst (p ++ [f]) c = .ok d' →
        step1file s p f =
          (⟨s.src, d', s.events ++ [.updatedFile (p ++ [f])]⟩, none)) := by
  have hol : olookup s.src (p ++ [f]) = some (.file c true) :=
    calc_md5_ok_some hsrc
  refine ⟨?_, ?_, ?_⟩
  · intro hex hdm
    refine step1file_id hsrc ?_
    rw [hex]
    simp only [if_true]
    exact hdm
  · intro hex d' hw
    unfold step1file
    rw [hsrc]
    dsimp only
    rw [hex]
    simp only [Bool.false_eq_true, if_false]
    rw [if_pos (by simp)]
    unfold copy2
    rw [hol]
    dsimp only
    rw [hw]
    simp
  · intro dm hex hdm hne d' hw
    unfold step1file
    rw [hsrc]
    dsimp only
    rw [hex]
    simp only [if_true]
    rw [hdm]
    dsimp only
    rw [if_pos (show some c ≠ some dm from by
      simp only [ne_eq, Option.some.injEq]
      exact fun hh => hne hh.symm)]
    unfold copy2
    rw [hol]
    dsimp only
    rw [hw]
    simp



/-! ## The claims -/

/-- C1, as stated, is false: with source `{x/}` (an empty directory) and
destination `{x}` (a file), the pass completes without error, performs no
action, and leaves a file at a relative path where the source has no file
(only a directory).  The `os.path.exists` checks of the prune loop do not
distinguish files from directories. -/
theorem c1_counterexample :
    sync (some (.dir [("x", .dir [])]))
        (some (.dir [("x", .file [7] true)])) =
      (⟨some (.dir [("x", .dir [])]),
        some (.dir [("x", .file [7] true)]), []⟩, none) ∧
    olookup (some (.dir [("x", .file [7] true)])) ["x"] =
      some (.file [7] true) ∧
    olookup (some (.dir [("x", .dir [])])) ["x"] = some (.dir []) := by
  refine ⟨by rfl, by rfl, by rfl⟩

/-- C1 (amended): for every directory tree at the source root and
well-formed destination, after one invocation of `sync` completes without
error, every file under the source root has a byte-identical file at the
corresponding relative path under the destination root, and no entry exists
under the destination root whose relative path has no corresponding entry
(file or directory) under the source root. -/
theorem c1_theorem {scs : Entries} {dst : Fs} {s' : PassState}
    (hw : OWf dst)
    (h : sync (some (.dir scs)) dst = (s', none)) :
    (∀ q c r, olookup (some (.dir scs)) q = some (.file c r) →
      olookup s'.dst q = some (.file c true)) ∧
    (∀ q, (olookup s'.dst q).isSome →
      (olookup (some (.dir scs)) q).isSome) := by
  obtain ⟨h1, h2, _, _⟩ := sync_ok_main hw h
  exact ⟨h1, h2⟩

theorem c1_witness :
    olookup (some (.dir [("a", Node.file [1] true)])) ["a"] =
        some (.file [1] true) ∧
    olookup ((⟨some (.dir [("a", Node.file [1] true)]),
        some (.dir [("a", Node.file [1] true)]),
        [.copiedNewFile ["a"]]⟩ : PassState)).dst ["a"] =
      some (.file [1] true) := by
  have hw : OWf (some (.dir ([] : Entries))) := NWf.dir (by simp) (by simp)
  have hsync : sync (some (.dir [("a", Node.file [1] true)]))
      (some (.dir [])) =
      (⟨some (.dir [("a", Node.file [1] true)]),
        some (.dir [("a", Node.file [1] true)]),
        [.copiedNewFile ["a"]]⟩, none) := by rfl
  exact ⟨by rfl, (c1_theorem hw hsync).1 ["a"] [1] true (by rfl)⟩

/-- C2, as stated, is false: with source files `a` (readable), `b`
(unreadable) and `c` (readable) and an empty destination, the pass copies
`a`, then aborts with the uncaught `PermissionError` from `calc_md5`: `c`
is never synchronized, no error event is emitted, and the prune phase never
runs. -/
theorem c2_counterexample :
    sync (some (.dir [("a", .file [1] true), ("b", .file [2] false),
        ("c", .file [3] true)])) (some (.dir [])) =
      (⟨some (.dir [("a", .file [1] true), ("b", .file [2] false),
          ("c", .file [3] true)]),
        some (.dir [("a", .file [1] true)]),
        [.copiedNewFile ["a"]]⟩, some .permissionDenied) := by rfl

/-- C2 (amended): whenever any source file is unreadable, the pass does not
continue past it: `sync` raises the error to its caller (aborting the
remainder of the pass), rather than emitting a per-file error event and
proceeding. -/
theorem c2_theorem {src dst : Fs} {p : List String} {f : String}
    {c : List Nat}
    (hq : olookup src (p ++ [f]) = some (.file c false)) :
    ((sync src dst).2).isSome := by
  exact sync_err_of_unreadable hq

theorem c2_witness :
    ((sync (some (.dir [("b", .file [2] false)])) (some (.dir []))).2).isSome := by
  exact c2_theorem (p := []) (f := "b") (by rfl)

/-- C3, as stated, is false: with a source path that exists but is a file,
`sync` does not fail to start.  `os.walk` on a non-directory yields
nothing, so the propagate phase is empty, and the prune phase then deletes
the destination's contents; the pass reports success. -/
theorem c3_counterexample :
    sync (some (.file [5] true)) (some (.dir [("f", .file [2] true)])) =
      (⟨some (.file [5] true), some (.dir []),
        [.deletedFile ["f"]]⟩, none) := by rfl

/-- C3 (amended): when the source path exists but is not a directory, the
pass is not surfaced as a failed pass: `sync` treats the source as an empty
tree, deletes every entry under the destination root (logging each), and
completes without error. -/
theorem c3_theorem {c : List Nat} {r : Bool} {cs : Entries}
    (hw : NWf (.dir cs)) :
    sync (some (.file c r)) (some (.dir cs)) =
      (⟨some (.file c r), some (.dir []),
        pruneAllEvents (walkBottom (.dir cs) [])⟩, none) := by
  refine sync_prune_all (by rfl) ?_ hw
  intro k ks
  rfl

theorem c3_witness :
    sync (some (.file [5] true)) (some (.dir [("f", .file [2] true)])) =
      (⟨some (.file [5] true), some (.dir []),
        pruneAllEvents (walkBottom (.dir [("f", .file [2] true)]) [])⟩,
        none) := by
  refine c3_theorem ?_
  refine NWf.dir (by simp) ?_
  intro e he
  simp at he
  rw [he]
  exact NWf.file

/-- C4, as stated, is false: with source `{b}` unreadable and destination
containing a file at `b`, the pass aborts with the uncaught
`PermissionError` and emits no error event at all (the destination is left
unchanged only because the pass dies before acting). -/
theorem c4_counterexample :
    sync (some (.dir [("b", .file [9] false)]))
        (some (.dir [("b", .file [9] true)])) =
      (⟨some (.dir [("b", .file [9] false)]),
        some (.dir [("b", .file [9] true)]), []⟩,
        some .permissionDenied) := by rfl

/-- C4 (amended): when the fingerprint of a source file cannot be computed
(the file is unreadable), `sync` raises the error to its caller instead of
emitting an error event; when that file is the first entry encountered, the
pass aborts before any action, leaving any destination directory tree
completely unchanged and the event log empty. -/
theorem c4_theorem (nm : String) (c : List Nat) (ds : Entries) :
    sync (some (.dir [(nm, .file c false)])) (some (.dir ds)) =
      (⟨some (.dir [(nm, .file c false)]), some (.dir ds), []⟩,
        some .permissionDenied) := by
  unfold sync
  have hwp : oWalkPre (some (.dir [(nm, Node.file c false)])) =
      [([], [], [nm])] := rfl
  rw [hwp, runPhase1]
  have hstep : step1 ⟨some (.dir [(nm, Node.file c false)]),
      some (.dir ds), []⟩ ([], [], [nm]) =
      (⟨some (.dir [(nm, Node.file c false)]), some (.dir ds), []⟩,
        some .permissionDenied) := by
    unfold step1
    rw [ensureRoot_id (by rfl)]
    dsimp only
    rw [step1dirs]
    dsimp only
    rw [step1files]
    have hsf : step1file ⟨some (.dir [(nm, Node.file c false)]),
        some (.dir ds), []⟩ [] nm =
        (⟨some (.dir [(nm, Node.file c false)]), some (.dir ds), []⟩,
          some .permissionDenied) := by
      unfold step1file
      have hol : olookup (some (.dir [(nm, Node.file c false)]))
          ([] ++ [nm]) = some (.file c false) := by
        simp [lookupChild]
      rw [show (⟨some (.dir [(nm, Node.file c false)]), some (.dir ds),
          []⟩ : PassState).src = some (.dir [(nm, Node.file c false)])
        from rfl]
      rw [hol]
      rfl
    rw [hsf]
  rw [hstep]

/-- C5, as stated, is false: pruning destination subtree `x` (containing
file `x/f` and directory `x/y`) absent from the source emits three events —
`Deleted file x/f`, `Deleted directory x/y`, `Deleted directory x` — not a
single `DeleteDir` for the subtree root.  The bottom-up walk deletes and
logs every descendant before `rmtree` reaches the root. -/
theorem c5_counterexample :
    sync (some (.dir []))
        (some (.dir [("x", .dir [("f", .file [1] true), ("y", .dir [])])])) =
      (⟨some (.dir []), some (.dir []),
        [.deletedFile ["x", "f"], .deletedDir ["x", "y"],
          .deletedDir ["x"]]⟩, none) := by rfl

/-- C5 (amended): the prune phase removes a destination subtree absent from
the source by walking it bottom-up, emitting one `DeleteFile` event per
descendant file and one `DeleteDir` event per directory — including every
descendant directory, not one event for the subtree root alone. -/
theorem c5_theorem {cs : Entries} (hw : NWf (.dir cs)) :
    sync (some (.dir [])) (some (.dir cs)) =
      (⟨some (.dir []), some (.dir []),
        pruneAllEvents (walkBottom (.dir cs) [])⟩, none) := by
  refine sync_prune_all ?_ ?_ hw
  · have hwp : oWalkPre (some (.dir ([] : Entries))) = [([], [], [])] := rfl
    rw [hwp]
    refine runPhase1_id ?_
    intro t ht
    simp at ht
    subst ht
    refine step1_id (ensureRoot_id (by rfl)) (by rfl) (by rfl)
  · intro k ks
    show olookup (lookupChild [] k) ks = none
    simp [lookupChild]

theorem c5_witness :
    sync (some (.dir []))
        (some (.dir [("x", .dir [("f", .file [1] true), ("y", .dir [])])])) =
      (⟨some (.dir []), some (.dir []),
        pruneAllEvents (walkBottom
          (.dir [("x", .dir [("f", .file [1] true), ("y", .dir [])])])
          [])⟩, none) := by
  refine c5_theorem ?_
  refine NWf.dir (by simp) ?_
  intro e he
  simp at he
  rw [he]
  refine NWf.dir (by simp) ?_
  intro e2 he2
  simp at he2
  rcases he2 with he2 | he2
  · rw [he2]
    exact NWf.file
  · rw [he2]
    exact NWf.dir (by simp) (by simp)

/-- C6: in the file body of phase 1, given a computed source fingerprint,
the destination file is copied or overwritten exactly when no destination
file exists or the destination fingerprint differs; a destination file with
an equal fingerprint is never rewritten (the step is a no-op). -/
theorem c6_theorem {s : PassState} {p : List String} {f : String}
    {c : List Nat}
    (hsrc : calc_md5 (olookup s.src (p ++ [f])) = .ok (some c)) :
    (pexists s.dst (p ++ [f]) = true →
      calc_md5 (olookup s.dst (p ++ [f])) = .ok (some c) →
      step1file s p f = (s, none)) ∧
    (pexists s.dst (p ++ [f]) = false →
      ∀ d', writeAt s.dst (p ++ [f]) c = .ok d' →
        step1file s p f =
          (⟨s.src, d', s.events ++ [.copiedNewFile (p ++ [f])]⟩, none)) ∧
    (∀ dm, pexists s.dst (p ++ [f]) = true →
      calc_md5 (olookup s.dst (p ++ [f])) = .ok (some dm) → dm ≠ c →
      ∀ d', writeAt s.dst (p ++ [f]) c = .ok d' →
        step1file s p f =
          (⟨s.src, d', s.events ++ [.updatedFile (p ++ [f])]⟩, none)) := by
  exact step1file_decision hsrc

theorem c6_witness :
    step1file ⟨some (.dir [("a", Node.file [1] true)]), some (.dir []), []⟩
        [] "a" =
      (⟨some (.dir [("a", Node.file [1] true)]),
        some (.dir [("a", Node.file [1] true)]),
        [.copiedNewFile ["a"]]⟩, none) := by
  have h := @c6_theorem
    ⟨some (.dir [("a", Node.file [1] true)]), some (.dir []), []⟩
    [] "a" [1] (by rfl)
  exact h.2.1 (by rfl) (some (.dir [("a", Node.file [1] true)])) (by rfl)

/-- C7: idempotence — if a pass over a well-formed source directory tree
and destination completes without error, an immediate second pass with the
source unchanged performs zero actions: no creation, copy, overwrite or
deletion, and an empty event log. -/
theorem c7_theorem {scs : Entries} {dst : Fs} {s' : PassState}
    (hwsrc : NWf (.dir scs)) (hw : OWf dst)
    (h : sync (some (.dir scs)) dst = (s', none)) :
    sync (some (.dir scs)) s'.dst =
      (⟨some (.dir scs), s'.dst, []⟩, none) := by
  exact sync_idempotent hwsrc hw h

theorem c7_witness :
    sync (some (.dir [("a", Node.file [1] true)]))
        (some (.dir [("a", Node.file [1] true)])) =
      (⟨some (.dir [("a", Node.file [1] true)]),
        some (.dir [("a", Node.file [1] true)]), []⟩, none) := by
  have hwsrc : NWf (Node.dir [("a", Node.file [1] true)]) := by
    refine NWf.dir (by simp) ?_
    intro e he
    simp at he
    rw [he]
    exact NWf.file
  have hw : OWf (some (.dir ([] : Entries))) := NWf.dir (by simp) (by simp)
  exact @c7_theorem [("a", Node.file [1] true)] (some (.dir []))
    ⟨some (.dir [("a", Node.file [1] true)]),
      some (.dir [("a", Node.file [1] true)]),
      [.copiedNewFile ["a"]]⟩ hwsrc hw (by rfl)

/-- C8: no source mutation — for every pair of roots, a pass leaves the
source tree of the threaded state exactly as it was; every mutation `sync`
performs targets the destination tree. -/
theorem c8_theorem (src dst : Fs) : ((sync src dst).1).src = src := by
  exact sync_src src dst

/-- C9: a missing source root makes the propagate phase a no-op (`os.walk`
yields nothing), after which the prune phase deletes every file and every
directory under the destination root, leaving it empty, completing without
any error; all emitted events are deletions. -/
theorem c9_theorem {cs : Entries} (hw : NWf (.dir cs)) :
    sync none (some (.dir cs)) =
      (⟨none, some (.dir []),
        pruneAllEvents (walkBottom (.dir cs) [])⟩, none) ∧
    (∀ e ∈ pruneAllEvents (walkBottom (.dir cs) []),
      (∃ q, e = .deletedFile q) ∨ (∃ q, e = .deletedDir q)) := by
  constructor
  · refine sync_prune_all (by rfl) ?_ hw
    intro k ks
    simp
  · intro e he
    exact pruneAllEvents_are_deletes he

theorem c9_witness :
    sync none (some (.dir [("f", .file [2] true),
        ("g", .dir [("h", .file [3] true)])])) =
      (⟨none, some (.dir []),
        pruneAllEvents (walkBottom (.dir [("f", .file [2] true),
          ("g", .dir [("h", .file [3] true)])]) [])⟩, none) := by
  refine (c9_theorem ?_).1
  refine NWf.dir (by simp) ?_
  intro e he
  simp at he
  rcases he with he | he
  · rw [he]
    exact NWf.file
  · rw [he]
    refine NWf.dir (by simp) ?_
    intro e2 he2
    simp at he2
    rw [he2]
    exact NWf.file

/-- C10: when a relative path is a readable regular file under the source
but an existing directory under the destination, the pass raises an
unhandled exception — `calc_md5` on the destination path hits
`IsADirectoryError`, which it does not catch — aborting the remainder of
the pass. -/
theorem c10_theorem {src dst : Fs} {p : List String} {f : String}
    {c : List Nat} {x : Entries}
    (hqs : olookup src (p ++ [f]) = some (.file c true))
    (hqd : olookup dst (p ++ [f]) = some (.dir x)) :
    ((sync src dst).2).isSome := by
  exact sync_err_of_conflict hqs hqd

theorem c10_witness :
    ((sync (some (.dir [("x", .file [1] true)]))
        (some (.dir [("x", .dir [])]))).2).isSome := by
  exact c10_theorem (p := []) (f := "x") (by rfl) (by rfl)


end Backup
